import Mathlib

/-!
# Verification of the document segmentation and extraction pipeline

This file embeds, over `List Char`, the chunking component
(`agents/chunker.py`, class `ChunkerAgent`) and the resilient extraction
component (`agents/requirement_extractor.py`, class
`RequirementExtractorAgent`) of the policy compliance checker, and proves
or refutes the frozen claims about them.

Modelling conventions:
* Python strings are `List Char`; string literals are written with
  `String.toList`.
* Python slice arithmetic uses `Int` (indices may be negative), with the
  clamping of slice bounds modelled by `pyIdx`.
* Loops whose progress depends on run-time values (`while start < len`,
  the recursion through `_process_large_chunk`) are modelled with an
  explicit fuel parameter; `none` means the fuel was exhausted, which
  corresponds to the Python loop not having terminated yet.
* External collaborators (the generative model, `json.loads` from the
  standard library, the langchain text splitter, the `hashlib` md5
  digest) are parameters of the embedding, collected in `ExtDeps`.
-/

set_option maxRecDepth 20000

namespace PolicyChecker

/-- Python `str` whitespace (`str.strip`, `str.split`, regex `\s`),
restricted to the ASCII range used by the documents. -/
def isPyWS (c : Char) : Bool :=
  c == ' ' || c == '\t' || c == '\n' || c == '\r' || c == '\x0b' || c == '\x0c'

/-- Python `content.strip()` : drop whitespace from both ends. -/
def pyStrip (xs : List Char) : List Char :=
  ((xs.dropWhile isPyWS).reverse.dropWhile isPyWS).reverse

/-- Index of the first occurrence of `pat` as a contiguous sublist of
`xs` (Python `str.find` / the `in` operator). -/
def findSub (pat : List Char) : List Char → Option Nat
  | [] => if pat.isEmpty then some 0 else none
  | c :: rest =>
    if pat.isPrefixOf (c :: rest) then some 0
    else (findSub pat rest).map (· + 1)

/-- Python `pat in xs`. -/
def containsSub (pat xs : List Char) : Bool :=
  (findSub pat xs).isSome

/-- Python `xs.split(pat)` for a non-empty separator `pat`
(non-overlapping, left to right), with fuel `|xs|`; the separator is
non-empty so the fuel never actually runs out. -/
def splitOnSubAux (pat : List Char) : Nat → List Char → List (List Char)
  | 0, xs => [xs]
  | fuel + 1, xs =>
    match findSub pat xs with
    | none => [xs]
    | some i => xs.take i :: splitOnSubAux pat fuel (xs.drop (i + pat.length))

/-- Python `xs.split(pat)`. -/
def splitOnSub (pat xs : List Char) : List (List Char) :=
  splitOnSubAux pat xs.length xs

lemma splitOnSubAux_succ_none {pat xs : List Char} {fuel : Nat}
    (h : findSub pat xs = none) : splitOnSubAux pat (fuel + 1) xs = [xs] := by
  unfold splitOnSubAux
  rw [h]

lemma splitOnSubAux_succ_some {pat xs : List Char} {fuel i : Nat}
    (h : findSub pat xs = some i) :
    splitOnSubAux pat (fuel + 1) xs =
      xs.take i :: splitOnSubAux pat fuel (xs.drop (i + pat.length)) := by
  conv_lhs => unfold splitOnSubAux
  rw [h]

lemma splitOnSubAux_ne_nil (pat : List Char) (fuel : Nat) (xs : List Char) :
    splitOnSubAux pat fuel xs ≠ [] := by
  cases fuel with
  | zero => simp [splitOnSubAux]
  | succ f =>
    cases h : findSub pat xs with
    | none => rw [splitOnSubAux_succ_none h]; simp
    | some i => rw [splitOnSubAux_succ_some h]; simp

/-! ## ChunkerAgent (`agents/chunker.py`) -/

/-- The prioritized boundary markers of `intelligent_chunk`
(`section_markers`, lines 58-66). -/
def sectionMarkers : List (List Char) :=
  ["\n\n\n", "\nSection ", "\nArticle ", "\nChapter ", "\n### ", "\n## ", "\n# "].map
    String.toList

/-- Reattach the marker (with its leading newlines stripped,
`marker.lstrip('\n')`) to every part except the first (lines 76-78). -/
def attachMarker (marker : List Char) : List (List Char) → List (List Char)
  | [] => []
  | p :: rest => p :: rest.map (fun q => marker.dropWhile (· == '\n') ++ q)

/-- One pass of the marker loop of `intelligent_chunk` (lines 71-83):
split every current fragment on `marker`, reattach the marker text to the
non-first parts, and drop whitespace-only parts. -/
def markerPass (marker : List Char) (sections : List (List Char)) : List (List Char) :=
  sections.flatMap fun sec =>
    if containsSub marker sec then
      (attachMarker marker (splitOnSub marker sec)).filter fun p => !(pyStrip p).isEmpty
    else [sec]

/-- The structural split of `intelligent_chunk` (lines 68-83): the marker
passes applied in priority order, starting from `[content]`. -/
def structuralSplit (content : List Char) : List (List Char) :=
  sectionMarkers.foldl (fun secs m => markerPass m secs) [content]

/-- Clamp a Python slice bound to `[0, n]` (negative indices count from
the end). -/
def pyIdx (n : Nat) (i : Int) : Nat :=
  (max 0 (min (if i < 0 then i + n else i) (n : Int))).toNat

/-- Python `xs[a:b]`. -/
def pySlice (xs : List Char) (a b : Int) : List Char :=
  (xs.take (pyIdx xs.length b)).drop (pyIdx xs.length a)

/-- Python `chunk.rfind(pat)`: highest index at which `pat` occurs, `-1`
if it does not occur. -/
def rfindSub (pat xs : List Char) : Int :=
  match ((List.range (xs.length + 1)).filter fun i => pat.isPrefixOf (xs.drop i)).getLast? with
  | some i => (i : Int)
  | none => -1

/-- The sentence-ending break points of `_split_large_section`
(line 119), in priority order. -/
def breakPoints : List (List Char) :=
  [". ", ".\n", "!\n", "?\n", "\n\n"].map String.toList

/-- The break-point loop of `_split_large_section` (lines 120-126): the
first break point whose right-most occurrence lies within the last 200
characters of the window wins; otherwise the hard edge `en`. Python
`rfind` returns `-1` when the pattern is absent, and `-1` still passes
the `> len(chunk) - 200` test when the window is shorter than 199
characters, which the `Int` comparison reproduces. -/
def firstBreak (chunk : List Char) (start en : Int) : List (List Char) → Int
  | [] => en
  | p :: ps =>
    if rfindSub p chunk > (chunk.length : Int) - 200 then
      start + rfindSub p chunk + p.length
    else firstBreak chunk start en ps

/-- The `while start < len(section)` loop of `_split_large_section`
(lines 104-131), with fuel; `none` models non-termination of the Python
loop (possible when `overlap` is at least the window progress). -/
def splitLargeAux (cs ov : Nat) (sec : List Char) : Nat → Int → Option (List (List Char))
  | 0, start => if start < (sec.length : Int) then none else some []
  | fuel + 1, start =>
    if start < (sec.length : Int) then
      let en : Int := start + (cs : Int)
      if (sec.length : Int) ≤ en then
        some [pySlice sec start (sec.length : Int)]
      else
        let chunk := pySlice sec start en
        let bb := firstBreak chunk start en breakPoints
        match splitLargeAux cs ov sec fuel (bb - (ov : Int)) with
        | none => none
        | some rest => some (pySlice sec start bb :: rest)
    else some []

/-- `_split_large_section(section)`: fuel `|section| + 1` is enough
whenever the loop makes progress. -/
def splitLarge (cs ov : Nat) (sec : List Char) : Option (List (List Char)) :=
  splitLargeAux cs ov sec (sec.length + 1) 0

/-- The size-enforcement loop of `intelligent_chunk` (lines 85-92):
sections within the limit pass through, larger sections are split. -/
def sizePass (cs ov : Nat) : List (List Char) → Option (List (List Char))
  | [] => some []
  | sec :: rest => do
    let head ← if sec.length ≤ cs then some [sec] else splitLarge cs ov sec
    let tail ← sizePass cs ov rest
    pure (head ++ tail)

/-- `intelligent_chunk(content)` (lines 52-94). -/
def intelligent_chunk (cs ov : Nat) (content : List Char) : Option (List (List Char)) :=
  sizePass cs ov (structuralSplit content)

/-- One output chunk of `chunk_document` (lines 32-38). -/
structure Chunk where
  chunk_id : Nat
  content : List Char
  doc_type : List Char
  char_count : Nat
  estimated_tokens : Nat
  deriving Repr, DecidableEq

/-- The `for i, chunk in enumerate(chunks)` loop of `chunk_document`
(lines 30-38): whitespace-only fragments are skipped, the id is the
enumeration index plus one, the content is the stripped fragment, and
`char_count` is the length of the fragment before stripping. -/
def buildChunks (docType : List Char) : Nat → List (List Char) → List Chunk
  | _, [] => []
  | i, ch :: rest =>
    if (pyStrip ch).isEmpty then buildChunks docType (i + 1) rest
    else
      { chunk_id := i + 1
        content := pyStrip ch
        doc_type := docType
        char_count := ch.length
        estimated_tokens := ch.length / 4 } :: buildChunks docType (i + 1) rest

/-- `chunk_document(content, doc_type)` (lines 12-50). The guard at
line 19 returns an empty sequence for empty or too-short input. -/
def chunk_document (cs ov : Nat) (content docType : List Char) : Option (List Chunk) :=
  if content.isEmpty || (pyStrip content).length < 10 then some []
  else do
    let chunks ← intelligent_chunk cs ov (pyStrip content)
    pure (buildChunks docType 0 chunks)

/-! ## Properties of the size-bounded splitter -/

/-- Reassembly of the splitter's output, as the spec's "concatenation
with the overlap regions ignored": the first chunk whole, every later
chunk with its leading `ov` overlap characters dropped. -/
def reassemble (ov : Nat) : List (List Char) → List Char
  | [] => []
  | p :: rest => p ++ rest.flatMap (List.drop ov)

lemma pyIdx_of_nonneg {n : Nat} {i : Int} (h0 : 0 ≤ i) (hn : i ≤ (n : Int)) :
    pyIdx n i = i.toNat := by
  unfold pyIdx
  rw [if_neg (by omega)]
  omega

lemma pySlice_eq {sec : List Char} {a b : Int} (ha : 0 ≤ a) (hab : a ≤ b)
    (hb : b ≤ (sec.length : Int)) :
    pySlice sec a b = (sec.drop a.toNat).take (b.toNat - a.toNat) := by
  unfold pySlice
  rw [pyIdx_of_nonneg ha (le_trans hab hb), pyIdx_of_nonneg (le_trans ha hab) hb,
    List.drop_take]

lemma rfindSub_cases (pat xs : List Char) :
    rfindSub pat xs = -1 ∨
      (0 ≤ rfindSub pat xs ∧ (rfindSub pat xs).toNat + pat.length ≤ xs.length) := by
  unfold rfindSub
  cases hl : ((List.range (xs.length + 1)).filter
      fun i => pat.isPrefixOf (xs.drop i)).getLast? with
  | none => exact Or.inl rfl
  | some i =>
    refine Or.inr ⟨by positivity, ?_⟩
    have hmem := List.mem_of_mem_getLast? hl
    rw [List.mem_filter, List.mem_range] at hmem
    have hpre := (List.isPrefixOf_iff_prefix.mp hmem.2).length_le
    rw [List.length_drop] at hpre
    simpa using by omega

lemma firstBreak_bounds {chunk : List Char} {start : Int} {pts : List (List Char)}
    (hlen : 200 ≤ chunk.length) (hpts : ∀ p ∈ pts, p.length = 2) :
    start + (chunk.length : Int) - 197 ≤
        firstBreak chunk start (start + chunk.length) pts ∧
      firstBreak chunk start (start + chunk.length) pts ≤ start + chunk.length := by
  induction pts with
  | nil => unfold firstBreak; omega
  | cons p ps ih =>
    unfold firstBreak
    split
    · rename_i hcond
      rcases rfindSub_cases p chunk with h | ⟨h0, hbound⟩
      · omega
      · have hp2 : p.length = 2 := hpts p (by simp)
        omega
    · exact ih fun q hq => hpts q (by simp [hq])

/-- Soundness of the splitting loop under the documented parameter
precondition `200 + overlap ≤ chunk_size`: with enough fuel the loop
terminates, its output reassembles to the suffix of the section it was
started on, every chunk is between `overlap + 1` and `chunk_size`
characters long, the first chunk is a prefix of that suffix, and
adjacent chunks agree on their `overlap`-character junction. -/
lemma splitLargeAux_sound (cs ov : Nat) (sec : List Char) (hcs : 200 + ov ≤ cs) :
    ∀ fuel : Nat, ∀ start : Int, 0 ≤ start →
      (sec.length : Int) - start < fuel →
      ((sec.length : Int) ≤ start ∨ (ov : Int) + 1 ≤ (sec.length : Int) - start) →
      ∃ ps, splitLargeAux cs ov sec fuel start = some ps ∧
        reassemble ov ps = sec.drop start.toNat ∧
        (∀ p ∈ ps, ov + 1 ≤ p.length ∧ p.length ≤ cs) ∧
        (∀ h ∈ ps.head?, h = (sec.drop start.toNat).take h.length) ∧
        List.Chain' (fun a b => a.drop (a.length - ov) = b.take ov) ps := by
  intro fuel
  induction fuel with
  | zero =>
    intro start h0 hfuel _
    refine ⟨[], ?_, ?_, by simp, by simp, by simp⟩
    · unfold splitLargeAux; rw [if_neg (by omega)]
    · rw [List.drop_eq_nil_of_le (by omega)]; rfl
  | succ fuel ih =>
    intro start h0 hfuel hside
    by_cases hlt : start < (sec.length : Int)
    · have hside' : (ov : Int) + 1 ≤ (sec.length : Int) - start := by omega
      by_cases hen : (sec.length : Int) ≤ start + (cs : Int)
      · -- last chunk: the remainder of the section
        refine ⟨[pySlice sec start (sec.length : Int)], ?_, ?_, ?_, ?_, ?_⟩
        · unfold splitLargeAux
          rw [if_pos hlt, if_pos hen]
        · simp only [reassemble, List.flatMap_nil, List.append_nil]
          rw [pySlice_eq h0 (le_of_lt hlt) le_rfl,
            List.take_of_length_le (by simp only [List.length_drop]; omega)]
        · intro p hp
          rw [List.mem_singleton] at hp
          subst hp
          rw [pySlice_eq h0 (le_of_lt hlt) le_rfl]
          simp only [List.length_take, List.length_drop]
          omega
        · intro h hh
          simp only [List.head?_cons, Option.mem_def, Option.some.injEq] at hh
          subst hh
          rw [pySlice_eq h0 (le_of_lt hlt) le_rfl]
          simp [List.take_of_length_le]
        · simp
      · -- interior chunk: cut at the best break point, recurse
        set en : Int := start + (cs : Int) with hen_def
        have hchunk_eq : pySlice sec start en =
            (sec.drop start.toNat).take (en.toNat - start.toNat) :=
          pySlice_eq h0 (by omega) (by omega)
        have hchunk_len : (pySlice sec start en).length = cs := by
          rw [hchunk_eq]
          simp only [List.length_take, List.length_drop]
          omega
        have hbb := @firstBreak_bounds (pySlice sec start en) start breakPoints
          (by omega)
          (by intro p hp; fin_cases hp <;> rfl)
        rw [hchunk_len] at hbb
        set bb : Int := firstBreak (pySlice sec start en) start (start + (cs : Int))
          breakPoints with hbb_def
        have hbb1 : start + (cs : Int) - 197 ≤ bb := hbb.1
        have hbb2 : bb ≤ start + (cs : Int) := hbb.2
        obtain ⟨rest, hrest_eq, hrest_re, hrest_len, hrest_head, hrest_chain⟩ :=
          ih (bb - (ov : Int)) (by omega) (by omega) (by omega)
        have hrest_ne : rest ≠ [] := by
          intro hnil
          rw [hnil] at hrest_re
          have : sec.drop (bb - (ov : Int)).toNat = [] := by
            rw [← hrest_re]; rfl
          rw [List.drop_eq_nil_iff] at this
          omega
        obtain ⟨hd, tl, rfl⟩ := List.exists_cons_of_ne_nil hrest_ne
        have hpiece_eq : pySlice sec start bb =
            (sec.drop start.toNat).take (bb.toNat - start.toNat) :=
          pySlice_eq h0 (by omega) (by omega)
        have hpiece_len : (pySlice sec start bb).length = bb.toNat - start.toNat := by
          rw [hpiece_eq]
          simp only [List.length_take, List.length_drop]
          omega
        have hhd_len : ov + 1 ≤ hd.length := (hrest_len hd (by simp)).1
        have hhd_pref : hd = (sec.drop (bb - (ov : Int)).toNat).take hd.length :=
          hrest_head hd (by simp)
        refine ⟨pySlice sec start bb :: hd :: tl, ?_, ?_, ?_, ?_, ?_⟩
        · unfold splitLargeAux
          rw [if_pos hlt, if_neg hen]
          simp only [← hbb_def, hrest_eq]
        · -- reassembly
          have hflat : (hd :: tl).flatMap (List.drop ov) = sec.drop bb.toNat := by
            have h1 : (hd :: tl).flatMap (List.drop ov) =
                (hd ++ tl.flatMap (List.drop ov)).drop ov := by
              rw [List.drop_append_of_le_length (by omega)]
              simp [List.flatMap_cons]
            rw [h1]
            have h2 : hd ++ tl.flatMap (List.drop ov) =
                sec.drop (bb - (ov : Int)).toNat := by
              simpa [reassemble] using hrest_re
            rw [h2, List.drop_drop]
            congr 1
            omega
          simp only [reassemble, hflat, hpiece_eq]
          have : sec.drop bb.toNat =
              (sec.drop start.toNat).drop (bb.toNat - start.toNat) := by
            rw [List.drop_drop]
            congr 1
            omega
          rw [this, List.take_append_drop]
        · intro p hp
          rcases List.mem_cons.mp hp with hp | hp
          · subst hp
            rw [hpiece_len]
            omega
          · exact hrest_len p hp
        · intro h hh
          simp only [List.head?_cons, Option.mem_def, Option.some.injEq] at hh
          subst hh
          rw [hpiece_eq]
          have hk : (List.take (bb.toNat - start.toNat) (sec.drop start.toNat)).length =
              bb.toNat - start.toNat := by
            simp only [List.length_take, List.length_drop]
            omega
          rw [hk]
        · rw [List.chain'_cons]
          refine ⟨?_, hrest_chain⟩
          -- the junction: trailing `ov` chars of the piece = leading of `hd`
          rw [hpiece_eq]
          have hk : (List.take (bb.toNat - start.toNat) (sec.drop start.toNat)).length =
              bb.toNat - start.toNat := by
            simp only [List.length_take, List.length_drop]
            omega
          rw [hk, List.drop_take, List.drop_drop]
          have harith2 : start.toNat + (bb.toNat - start.toNat - ov) =
              (bb - (ov : Int)).toNat := by omega
          have harith3 : bb.toNat - start.toNat - (bb.toNat - start.toNat - ov) = ov := by
            omega
          rw [harith2, harith3]
          conv_rhs => rw [hhd_pref]
          rw [List.take_take, min_eq_left (by omega)]
    · refine ⟨[], ?_, ?_, by simp, by simp, by simp⟩
      · unfold splitLargeAux; rw [if_neg hlt]
      · rw [List.drop_eq_nil_of_le (by omega)]; rfl

/-- `_split_large_section` under the documented precondition: it
terminates, reassembles losslessly, respects the size bound, and
adjacent chunks share their `overlap`-character junction. -/
lemma splitLarge_sound (cs ov : Nat) (sec : List Char) (hcs : 200 + ov ≤ cs) :
    ∃ ps, splitLarge cs ov sec = some ps ∧
      reassemble ov ps = sec ∧
      (∀ p ∈ ps, p.length ≤ cs) ∧
      List.Chain' (fun a b => a.drop (a.length - ov) = b.take ov) ps := by
  by_cases hlen : sec.length ≤ cs
  · rcases List.eq_nil_or_concat sec with hnil | ⟨_, _, hne⟩
    · subst hnil
      exact ⟨[], by unfold splitLarge splitLargeAux; simp, rfl, by simp, by simp⟩
    · have hpos : 0 < sec.length := by
        subst hne; simp
      refine ⟨[sec], ?_, ?_, ?_, by simp⟩
      · unfold splitLarge splitLargeAux
        rw [if_pos (by exact_mod_cast hpos), if_pos (by omega)]
        rw [pySlice_eq le_rfl (by omega) le_rfl]
        simp
      · simp [reassemble]
      · simpa using hlen
  · obtain ⟨ps, heq, hre, hlens, _, hchain⟩ :=
      splitLargeAux_sound cs ov sec hcs (sec.length + 1) 0 le_rfl (by omega) (by omega)
    exact ⟨ps, heq, by simpa using hre, fun p hp => (hlens p hp).2, hchain⟩

/-- Every character of the section occurs in some chunk of the
splitter's output. -/
lemma mem_of_mem_reassemble {ov : Nat} {ps : List (List Char)} {c : Char}
    (hc : c ∈ reassemble ov ps) : ∃ p ∈ ps, c ∈ p := by
  cases ps with
  | nil => simp [reassemble] at hc
  | cons p rest =>
    simp only [reassemble, List.mem_append, List.mem_flatMap] at hc
    rcases hc with hc | ⟨q, hq, hcq⟩
    · exact ⟨p, by simp, hc⟩
    · exact ⟨q, by simp [hq], List.mem_of_mem_drop hcq⟩

/-! ## Basic facts about `pyStrip` -/

lemma pyStrip_length_le (xs : List Char) : (pyStrip xs).length ≤ xs.length :=
  calc (pyStrip xs).length
      = ((xs.dropWhile isPyWS).reverse.dropWhile isPyWS).length := by
        simp [pyStrip]
    _ ≤ (xs.dropWhile isPyWS).reverse.length :=
        (List.dropWhile_sublist _).length_le
    _ ≤ xs.length := by
        simpa using
          (List.dropWhile_sublist isPyWS :
            List.Sublist (xs.dropWhile isPyWS) xs).length_le

lemma pyStrip_eq_nil_iff {xs : List Char} :
    pyStrip xs = [] ↔ ∀ c ∈ xs, isPyWS c := by
  unfold pyStrip
  rw [List.reverse_eq_nil_iff, List.dropWhile_eq_nil_iff]
  constructor
  · intro h c hc
    by_cases hdrop : c ∈ xs.dropWhile isPyWS
    · exact h c (by simpa using hdrop)
    · -- c is in the dropped whitespace prefix
      obtain ⟨pre, hpre, hsplit⟩ : ∃ pre, (∀ d ∈ pre, isPyWS d) ∧
          pre ++ xs.dropWhile isPyWS = xs := by
        refine ⟨xs.takeWhile isPyWS, ?_, List.takeWhile_append_dropWhile isPyWS xs⟩
        intro d hd
        exact List.mem_takeWhile_imp hd
      rw [← hsplit] at hc
      rcases List.mem_append.mp hc with h1 | h1
      · exact hpre c h1
      · exact absurd h1 hdrop
  · intro h c hc
    exact h c ((List.dropWhile_sublist _).mem (by simpa using hc))

lemma pyStrip_ne_nil_of_mem {xs : List Char} {c : Char} (hc : c ∈ xs)
    (hws : ¬ isPyWS c) : pyStrip xs ≠ [] := by
  intro h
  exact hws (pyStrip_eq_nil_iff.mp h c hc)

lemma pyStrip_sublist (xs : List Char) : List.Sublist (pyStrip xs) xs := by
  have h1 : List.Sublist ((xs.dropWhile isPyWS).reverse.dropWhile isPyWS)
      (xs.dropWhile isPyWS).reverse := List.dropWhile_sublist _
  have h2 := h1.reverse
  rw [List.reverse_reverse] at h2
  exact h2.trans (List.dropWhile_sublist _)

lemma dropWhile_head_not {p : Char → Bool} {l : List Char} {c : Char} {t : List Char}
    (h : l.dropWhile p = c :: t) : p c = false := by
  induction l with
  | nil => simp at h
  | cons a l ih =>
    rw [List.dropWhile_cons] at h
    split at h
    · exact ih h
    · rename_i hpa
      cases h
      simpa using hpa

lemma pyStrip_exists_not_ws {xs : List Char} (h : pyStrip xs ≠ []) :
    ∃ c ∈ pyStrip xs, isPyWS c = false := by
  unfold pyStrip at *
  cases hd : (xs.dropWhile isPyWS).reverse.dropWhile isPyWS with
  | nil => rw [hd] at h; simp at h
  | cons c t =>
    exact ⟨c, by simp [hd], dropWhile_head_not hd⟩

lemma pyStrip_head_not_ws {xs : List Char} {c : Char} {t : List Char}
    (h : pyStrip xs = c :: t) : isPyWS c = false := by
  unfold pyStrip at h
  have hpre : (c :: t) <+: xs.dropWhile isPyWS := by
    rw [← h]
    rw [← List.reverse_suffix]
    simp only [List.reverse_reverse]
    exact List.dropWhile_suffix _
  obtain ⟨r, hr⟩ := hpre
  cases hz : xs.dropWhile isPyWS with
  | nil => rw [hz] at hr; simp at hr
  | cons a s =>
    rw [hz] at hr
    have : a = c := by
      have := hr
      injection this.symm
    subst this
    exact dropWhile_head_not hz

lemma pyStrip_last_not_ws {xs : List Char} {c : Char} {t : List Char}
    (h : (pyStrip xs).reverse = c :: t) : isPyWS c = false := by
  unfold pyStrip at h
  rw [List.reverse_reverse] at h
  exact dropWhile_head_not h

lemma pyStrip_idem (xs : List Char) : pyStrip (pyStrip xs) = pyStrip xs := by
  cases hy : pyStrip xs with
  | nil => simp [pyStrip]
  | cons c t =>
    have h1 : (c :: t).dropWhile isPyWS = c :: t := by
      rw [List.dropWhile_cons, pyStrip_head_not_ws hy]
      simp
    cases hrev : (c :: t).reverse with
    | nil => simp at hrev
    | cons d s =>
      have hd : isPyWS d = false :=
        pyStrip_last_not_ws (show (pyStrip xs).reverse = d :: s by rw [hy, hrev])
      have h2 : (c :: t).reverse.dropWhile isPyWS = (c :: t).reverse := by
        rw [hrev, List.dropWhile_cons, hd]
        simp
      unfold pyStrip
      rw [h1, h2, List.reverse_reverse]

/-! ## The structural split never discards all content -/

/-- Joining split parts back with the separator. -/
def joinWith (m : List Char) : List (List Char) → List Char
  | [] => []
  | [p] => p
  | p :: q :: rest => p ++ m ++ joinWith m (q :: rest)

lemma findSub_some_prefix {pat xs : List Char} {i : Nat}
    (h : findSub pat xs = some i) : pat.isPrefixOf (xs.drop i) := by
  induction xs generalizing i with
  | nil =>
    unfold findSub at h
    split at h
    · rename_i hpat
      cases h
      simp_all [List.isEmpty_iff]
    · simp at h
  | cons c rest ih =>
    unfold findSub at h
    split at h
    · rename_i hpre
      cases h
      simpa using List.isPrefixOf_iff_prefix.mp hpre
    · rw [Option.map_eq_some'] at h
      obtain ⟨j, hj, rfl⟩ := h
      simpa using ih hj

lemma findSub_nil_of_ne {pat : List Char} (h : pat ≠ []) : findSub pat [] = none := by
  unfold findSub
  simp [List.isEmpty_iff, h]

lemma joinWith_splitOnSubAux {pat : List Char} (hpat : pat ≠ []) :
    ∀ fuel xs, xs.length ≤ fuel → joinWith pat (splitOnSubAux pat fuel xs) = xs := by
  intro fuel
  induction fuel with
  | zero =>
    intro xs hlen
    have : xs = [] := by
      cases xs
      · rfl
      · simp at hlen
    subst this
    rfl
  | succ fuel ih =>
    intro xs hlen
    cases hfind : findSub pat xs with
    | none =>
      rw [splitOnSubAux_succ_none hfind]
      rfl
    | some i =>
      rw [splitOnSubAux_succ_some hfind]
      have hpre := findSub_some_prefix hfind
      rw [List.isPrefixOf_iff_prefix] at hpre
      obtain ⟨r, hr⟩ := hpre
      have hxs : xs = xs.take i ++ pat ++ r := by
        conv_lhs => rw [← List.take_append_drop i xs, ← hr]
        simp
      have hdrop : xs.drop (i + pat.length) = r := by
        have h1 : xs.drop i = pat ++ r := hr.symm
        have h2 : xs.drop (i + pat.length) = (xs.drop i).drop pat.length := by
          rw [List.drop_drop]
        rw [h2, h1, List.drop_append_of_le_length le_rfl]
        simp
      have hxs_ne : xs ≠ [] := by
        intro hnil
        rw [hnil, findSub_nil_of_ne hpat] at hfind
        simp at hfind
      have hrlen : r.length ≤ fuel := by
        have h1 := congrArg List.length hxs
        simp only [List.length_append] at h1
        have hp : 0 < pat.length := List.length_pos_of_ne_nil hpat
        omega
      have hrec := ih r hrlen
      rw [hdrop]
      obtain ⟨q, qs, hsplit⟩ :=
        List.exists_cons_of_ne_nil (splitOnSubAux_ne_nil pat fuel r)
      rw [hsplit]
      show xs.take i ++ pat ++ joinWith pat (q :: qs) = xs
      rw [← hsplit, hrec]
      exact hxs.symm

lemma joinWith_splitOnSub {pat xs : List Char} (hpat : pat ≠ []) :
    joinWith pat (splitOnSub pat xs) = xs :=
  joinWith_splitOnSubAux hpat xs.length xs le_rfl

lemma mem_of_mem_joinWith {m : List Char} {parts : List (List Char)} {c : Char}
    (hc : c ∈ joinWith m parts) : c ∈ m ∨ ∃ p ∈ parts, c ∈ p := by
  induction parts with
  | nil => simp [joinWith] at hc
  | cons p rest ih =>
    cases rest with
    | nil =>
      exact Or.inr ⟨p, by simp, by simpa [joinWith] using hc⟩
    | cons q qs =>
      simp only [joinWith, List.mem_append] at hc
      rcases hc with (hc | hc) | hc
      · exact Or.inr ⟨p, by simp, hc⟩
      · exact Or.inl hc
      · rcases ih hc with h | ⟨r, hr, hcr⟩
        · exact Or.inl h
        · exact Or.inr ⟨r, by simp [List.mem_cons.mp hr], hcr⟩

lemma splitOnSub_two_of_contains {pat xs : List Char} (hpat : pat ≠ [])
    (h : containsSub pat xs) : ∃ a b rest, splitOnSub pat xs = a :: b :: rest := by
  unfold containsSub at h
  rw [Option.isSome_iff_exists] at h
  obtain ⟨i, hi⟩ := h
  have hxs_ne : xs ≠ [] := by
    intro hnil
    rw [hnil, findSub_nil_of_ne hpat] at hi
    simp at hi
  unfold splitOnSub
  cases hlen : xs.length with
  | zero => simp_all [List.length_eq_zero]
  | succ n =>
    rw [splitOnSubAux_succ_some hi]
    obtain ⟨q, qs, hsplit⟩ := List.exists_cons_of_ne_nil
      (splitOnSubAux_ne_nil pat n (xs.drop (i + pat.length)))
    rw [hsplit]
    exact ⟨_, q, qs, rfl⟩

/-- Every part of a split occurs, as a set of characters, inside some
element of the marker-reattached list. -/
lemma attachMarker_covers {m : List Char} {parts : List (List Char)} {p : List Char}
    (hp : p ∈ parts) : ∃ q ∈ attachMarker m parts, ∀ x ∈ p, x ∈ q := by
  cases parts with
  | nil => simp at hp
  | cons a rest =>
    rcases List.mem_cons.mp hp with rfl | hp
    · exact ⟨p, by simp [attachMarker], fun x hx => hx⟩
    · refine ⟨m.dropWhile (· == '\n') ++ p, ?_, fun x hx => by simp [hx]⟩
      simp only [attachMarker, List.mem_cons, List.mem_map]
      exact Or.inr ⟨p, hp, rfl⟩

/-- One marker pass keeps at least one fragment of every section and
keeps every fragment non-whitespace. The side condition holds for every
marker in `sectionMarkers`: either the marker is all whitespace (the
triple newline, whose parts are kept verbatim) or the reattached marker
text contains a non-whitespace character. -/
lemma markerPass_inv {m : List Char} (hm : m ≠ [])
    (hcase : (∀ c ∈ m, isPyWS c = true) ∨
      ∃ c ∈ m.dropWhile (· == '\n'), isPyWS c = false)
    {S : List (List Char)} (hS : ∀ sec ∈ S, pyStrip sec ≠ []) (hne : S ≠ []) :
    markerPass m S ≠ [] ∧ ∀ sec ∈ markerPass m S, pyStrip sec ≠ [] := by
  constructor
  · obtain ⟨s0, S', rfl⟩ := List.exists_cons_of_ne_nil hne
    have hs0 := hS s0 (by simp)
    intro hempty
    unfold markerPass at hempty
    rw [List.flatMap_eq_nil_iff] at hempty
    have h0 := hempty s0 (by simp)
    split at h0
    · rename_i hcont
      rw [List.filter_eq_nil_iff] at h0
      have hstripped : ∀ q ∈ attachMarker m (splitOnSub m s0), pyStrip q = [] := by
        intro q hq
        have := h0 q hq
        simpa [List.isEmpty_iff] using this
      rcases hcase with hws | ⟨d, hd, hdws⟩
      · -- all-whitespace marker: some part keeps a non-whitespace char
        obtain ⟨c, hc, hcws⟩ := pyStrip_exists_not_ws hs0
        have hc' : c ∈ s0 := (pyStrip_sublist s0).mem hc
        rw [← @joinWith_splitOnSub m s0 hm] at hc'
        rcases mem_of_mem_joinWith hc' with hcm | ⟨p, hp, hcp⟩
        · rw [hws c hcm] at hcws
          simp at hcws
        · obtain ⟨q, hq, hsub⟩ := @attachMarker_covers m _ _ hp
          exact pyStrip_ne_nil_of_mem (hsub c hcp) (by simp [hcws]) (hstripped q hq)
      · -- the reattached marker text itself is non-whitespace
        obtain ⟨a, b, rest, hsplit⟩ := splitOnSub_two_of_contains hm hcont
        have hq : (m.dropWhile (· == '\n') ++ b) ∈ attachMarker m (splitOnSub m s0) := by
          rw [hsplit]
          simp [attachMarker]
        exact @pyStrip_ne_nil_of_mem _ d (by simp [hd]) (by simp [hdws])
          (hstripped _ hq)
    · simp at h0
  · intro sec hsec
    unfold markerPass at hsec
    rw [List.mem_flatMap] at hsec
    obtain ⟨s, hs, hmem⟩ := hsec
    by_cases hcont : containsSub m s
    · rw [if_pos hcont, List.mem_filter] at hmem
      simpa [List.isEmpty_iff] using hmem.2
    · rw [if_neg hcont, List.mem_singleton] at hmem
      subst hmem
      exact hS _ hs

lemma foldl_markerPass_inv :
    ∀ ms : List (List Char),
      (∀ m ∈ ms, m ≠ [] ∧ ((∀ c ∈ m, isPyWS c = true) ∨
        ∃ c ∈ m.dropWhile (· == '\n'), isPyWS c = false)) →
      ∀ S : List (List Char), S ≠ [] → (∀ sec ∈ S, pyStrip sec ≠ []) →
        ms.foldl (fun secs m => markerPass m secs) S ≠ [] ∧
          ∀ sec ∈ ms.foldl (fun secs m => markerPass m secs) S, pyStrip sec ≠ [] := by
  intro ms
  induction ms with
  | nil => exact fun _ S hne hS => ⟨hne, hS⟩
  | cons m ms ih =>
    intro hms S hne hS
    obtain ⟨hm, hcase⟩ := hms m (by simp)
    have h1 := markerPass_inv hm hcase hS hne
    simpa using ih (fun q hq => hms q (by simp [hq])) (markerPass m S) h1.1 h1.2

/-- The structural split of a stripped, non-whitespace input is never
empty, and all its fragments are non-whitespace. -/
lemma structuralSplit_inv {content : List Char} (h : pyStrip content ≠ []) :
    structuralSplit content ≠ [] ∧
      ∀ sec ∈ structuralSplit content, pyStrip sec ≠ [] := by
  refine foldl_markerPass_inv sectionMarkers (by decide) [content] (by simp) ?_
  intro sec hsec
  rw [List.mem_singleton] at hsec
  subst hsec
  exact h

/-- The size-enforcement pass terminates under the parameter
precondition, bounds every piece by `chunk_size`, and loses no
character of any section. -/
lemma sizePass_sound (cs ov : Nat) (hcs : 200 + ov ≤ cs) :
    ∀ secs : List (List Char), ∃ out, sizePass cs ov secs = some out ∧
      (∀ p ∈ out, p.length ≤ cs) ∧
      (∀ sec ∈ secs, ∀ c ∈ sec, ∃ p ∈ out, c ∈ p) := by
  intro secs
  induction secs with
  | nil => exact ⟨[], rfl, by simp, by simp⟩
  | cons sec rest ih =>
    obtain ⟨out, hout, hbound, hcover⟩ := ih
    by_cases hlen : sec.length ≤ cs
    · refine ⟨sec :: out, ?_, ?_, ?_⟩
      · simp [sizePass, hlen, hout]
      · intro p hp
        rcases List.mem_cons.mp hp with rfl | hp
        · exact hlen
        · exact hbound p hp
      · intro s hs c hc
        rcases List.mem_cons.mp hs with rfl | hs
        · exact ⟨s, by simp, hc⟩
        · obtain ⟨p, hp, hcp⟩ := hcover s hs c hc
          exact ⟨p, by simp [hp], hcp⟩
    · obtain ⟨ps, hps, hre, hbound', _⟩ := splitLarge_sound cs ov sec hcs
      refine ⟨ps ++ out, ?_, ?_, ?_⟩
      · simp [sizePass, hlen, hout, hps]
      · intro p hp
        rcases List.mem_append.mp hp with hp | hp
        · exact hbound' p hp
        · exact hbound p hp
      · intro s hs c hc
        rcases List.mem_cons.mp hs with rfl | hs
        · rw [← hre] at hc
          obtain ⟨p, hp, hcp⟩ := mem_of_mem_reassemble hc
          exact ⟨p, List.mem_append.mpr (Or.inl hp), hcp⟩
        · obtain ⟨p, hp, hcp⟩ := hcover s hs c hc
          exact ⟨p, List.mem_append.mpr (Or.inr hp), hcp⟩

lemma buildChunks_eq_nil_iff {dt : List Char} {i : Nat} {l : List (List Char)} :
    buildChunks dt i l = [] ↔ ∀ ch ∈ l, pyStrip ch = [] := by
  induction l generalizing i with
  | nil => simp [buildChunks]
  | cons ch rest ih =>
    unfold buildChunks
    by_cases h : (pyStrip ch).isEmpty
    · rw [if_pos h, ih]
      constructor
      · intro hall ch' hch'
        rcases List.mem_cons.mp hch' with rfl | hm
        · exact List.isEmpty_iff.mp h
        · exact hall ch' hm
      · intro hall ch' hch'
        exact hall ch' (by simp [hch'])
    · rw [if_neg h]
      constructor
      · intro hfalse
        simp at hfalse
      · intro hall
        exact absurd (hall ch (by simp)) fun heq => h (by simp [heq])

lemma mem_buildChunks {dt : List Char} {ck : Chunk} {i : Nat} {l : List (List Char)}
    (h : ck ∈ buildChunks dt i l) :
    ∃ frag ∈ l, ck.content = pyStrip frag ∧ ck.char_count = frag.length ∧
      ck.estimated_tokens = frag.length / 4 ∧ ck.doc_type = dt ∧ pyStrip frag ≠ [] := by
  induction l generalizing i with
  | nil => simp [buildChunks] at h
  | cons ch rest ih =>
    unfold buildChunks at h
    by_cases hempty : (pyStrip ch).isEmpty
    · rw [if_pos hempty] at h
      obtain ⟨frag, hfrag, hrest⟩ := ih h
      exact ⟨frag, by simp [hfrag], hrest⟩
    · rw [if_neg hempty] at h
      rcases List.mem_cons.mp h with rfl | hm
      · exact ⟨ch, by simp, rfl, rfl, rfl, rfl,
          fun heq => hempty (by simp [heq])⟩
      · obtain ⟨frag, hfrag, hrest⟩ := ih hm
        exact ⟨frag, by simp [hfrag], hrest⟩

/-- Master soundness lemma for `chunk_document` under the parameter
precondition: it terminates on every input, is empty exactly on the
guarded inputs, and every chunk comes from a fragment whose stripped
form is the chunk content, with `char_count` the pre-strip length. -/
lemma chunk_document_sound (cs ov : Nat) (hcs : 200 + ov ≤ cs)
    (content dt : List Char) :
    ∃ chunks, chunk_document cs ov content dt = some chunks ∧
      (chunks = [] ↔ (content = [] ∨ (pyStrip content).length < 10)) ∧
      ∀ ck ∈ chunks, ∃ frag, ck.content = pyStrip frag ∧ ck.content ≠ [] ∧
        ck.char_count = frag.length ∧ ck.estimated_tokens = frag.length / 4 ∧
        ck.content.length ≤ cs ∧ frag.length ≤ cs := by
  by_cases hc : content = [] ∨ (pyStrip content).length < 10
  · refine ⟨[], ?_, by simpa using hc, by simp⟩
    unfold chunk_document
    rw [if_pos (by simpa [List.isEmpty_iff] using hc)]
  · push_neg at hc
    obtain ⟨hne0, hlen10⟩ := hc
    have hstrip_ne : pyStrip content ≠ [] := by
      intro h
      rw [h] at hlen10
      simp at hlen10
    have hstrip2 : pyStrip (pyStrip content) ≠ [] := by
      rw [pyStrip_idem]
      exact hstrip_ne
    obtain ⟨hsecs_ne, hsecs_all⟩ := structuralSplit_inv hstrip2
    obtain ⟨out, hout, hbound, hcover⟩ :=
      sizePass_sound cs ov hcs (structuralSplit (pyStrip content))
    refine ⟨buildChunks dt 0 out, ?_, ?_, ?_⟩
    · unfold chunk_document
      rw [if_neg (by simp [List.isEmpty_iff, hne0]; omega)]
      unfold intelligent_chunk
      rw [hout]
      rfl
    · constructor
      · intro hnil
        rw [buildChunks_eq_nil_iff] at hnil
        obtain ⟨s0, hs0rest, hs0⟩ :=
          List.exists_cons_of_ne_nil hsecs_ne
        have hs0mem : s0 ∈ structuralSplit (pyStrip content) := by
          rw [hs0]
          simp
        obtain ⟨c, hc0, hcws⟩ := pyStrip_exists_not_ws (hsecs_all s0 hs0mem)
        have hcmem : c ∈ s0 := (pyStrip_sublist s0).mem hc0
        obtain ⟨p, hp, hcp⟩ := hcover s0 hs0mem c hcmem
        exact absurd (hnil p hp)
          (pyStrip_ne_nil_of_mem hcp (by simp [hcws]))
      · intro hfalse
        exact absurd hfalse (by push_neg; exact ⟨hne0, hlen10⟩)
    · intro ck hck
      obtain ⟨frag, hfrag, hcontent, hcc, het, _, hstripne⟩ := mem_buildChunks hck
      have hfb := hbound frag hfrag
      refine ⟨frag, hcontent, ?_, hcc, het, ?_, hfb⟩
      · rw [hcontent]
        exact hstripne
      · rw [hcontent]
        exact le_trans (pyStrip_length_le frag) hfb

/-! ## Claims about the chunker -/

/-- C1, counterexample: `chunk_document` is not lossless. On the input
`"aaaaa\n\n\nbbbbb"` (length 13 ≥ 10) the triple-newline marker is
consumed by the structural split and `marker.lstrip('\n')` reattaches
nothing, so the three newline characters disappear: neither plain
concatenation nor overlap-dropping reassembly of the chunk contents
reconstructs the input. -/
theorem chunk_document_drops_marker_newlines :
    chunk_document 30000 200 ("aaaaa\n\n\nbbbbb".toList) ("policy".toList) =
      some [⟨1, "aaaaa".toList, "policy".toList, 5, 1⟩,
        ⟨2, "bbbbb".toList, "policy".toList, 5, 1⟩] ∧
    "aaaaa".toList ++ "bbbbb".toList ≠ "aaaaa\n\n\nbbbbb".toList ∧
    reassemble 200 ["aaaaa".toList, "bbbbb".toList] ≠ "aaaaa\n\n\nbbbbb".toList := by
  decide

/-- C1 (amended): the size-bounded splitter itself is lossless — with
`200 + overlap ≤ max_chunk_size`, `_split_large_section` terminates and
concatenating its chunks with each non-first chunk's leading `overlap`
characters dropped reconstructs the section exactly. Whole-document
reconstruction additionally loses the structural markers' leading
newlines, dropped whitespace-only fragments, and the whitespace stripped
from each emitted chunk. -/
theorem splitter_reassembles_losslessly (cs ov : Nat) (sec : List Char)
    (hcs : 200 + ov ≤ cs) :
    ∃ ps, splitLarge cs ov sec = some ps ∧ reassemble ov ps = sec := by
  obtain ⟨ps, h1, h2, _, _⟩ := splitLarge_sound cs ov sec hcs
  exact ⟨ps, h1, h2⟩

theorem splitter_reassembles_losslessly_witness :
    ∃ ps, splitLarge 30000 200 ("Hello world.".toList) = some ps ∧
      reassemble 200 ps = "Hello world.".toList :=
  splitter_reassembles_losslessly 30000 200 _ (by norm_num)

/-- C4: every chunk produced by `chunk_document` has content length at
most `max_chunk_size` (under the parameter precondition
`200 + overlap ≤ max_chunk_size`). Sections within the limit pass
through unchanged and every splitter piece is cut at or before the hard
window edge, so the exceptional oversized-sentence case allowed by the
claim never actually occurs. -/
theorem chunk_document_size_bound (cs ov : Nat) (content dt : List Char)
    (chunks : List Chunk) (hcs : 200 + ov ≤ cs)
    (heq : chunk_document cs ov content dt = some chunks) :
    ∀ ck ∈ chunks, ck.content.length ≤ cs := by
  obtain ⟨chunks', h1, _, h3⟩ := chunk_document_sound cs ov hcs content dt
  rw [heq] at h1
  injection h1 with h
  subst h
  intro ck hck
  obtain ⟨frag, _, _, _, _, hle, _⟩ := h3 ck hck
  exact hle

def aChunk : Chunk := ⟨1, "aaaa".toList, "policy".toList, 5, 1⟩

def bChunk : Chunk := ⟨2, "bbbbbb".toList, "policy".toList, 6, 1⟩

theorem chunk_document_size_bound_witness :
    aChunk.content.length ≤ 30000 :=
  chunk_document_size_bound 30000 200 ("aaaa \n\n\nbbbbbb".toList)
    ("policy".toList) [aChunk, bChunk] (by norm_num) (by decide) aChunk
    (by decide)

/-- C5: for adjacent chunks of the size-bounded splitter (with
`0 ≤ overlap ≤ max_chunk_size - 200`), the trailing `overlap` characters
of chunk `i` equal the leading `overlap` characters of chunk `i+1`; the
final chunk is emitted verbatim to the end of the section. -/
theorem splitter_overlap_chain (cs ov : Nat) (sec : List Char)
    (ps : List (List Char)) (hcs : 200 + ov ≤ cs)
    (heq : splitLarge cs ov sec = some ps) :
    List.Chain' (fun a b => a.drop (a.length - ov) = b.take ov) ps := by
  obtain ⟨ps', h1, _, _, h4⟩ := splitLarge_sound cs ov sec hcs
  rw [heq] at h1
  injection h1 with h
  subst h
  exact h4

/-- A 250-character section split with window 210 and overlap 10: the
cut lands after the `". "` at positions 150-151, and the two chunks
share a 10-character junction. -/
def sampleSection : List Char :=
  List.replicate 150 'a' ++ ". ".toList ++ List.replicate 98 'a'

theorem splitter_overlap_chain_witness :
    List.Chain' (fun a b => a.drop (a.length - 10) = b.take 10)
      [List.replicate 150 'a' ++ ". ".toList,
        List.replicate 8 'a' ++ ". ".toList ++ List.replicate 98 'a'] :=
  splitter_overlap_chain 210 10 sampleSection _ (by norm_num) (by decide)

/-- C6: under the parameter precondition, `chunk_document` returns a
result on every input (the modelled computation never fails), and that
result is empty exactly when the input is empty or its stripped length
is below 10 — in particular five whitespace characters give an empty
sequence, and any other input yields at least one chunk. -/
theorem chunk_document_empty_iff (cs ov : Nat) (content dt : List Char)
    (hcs : 200 + ov ≤ cs) :
    ∃ chunks, chunk_document cs ov content dt = some chunks ∧
      (chunks = [] ↔ (content = [] ∨ (pyStrip content).length < 10)) := by
  obtain ⟨chunks, h1, h2, _⟩ := chunk_document_sound cs ov hcs content dt
  exact ⟨chunks, h1, h2⟩

theorem chunk_document_empty_iff_witness :
    ∃ chunks, chunk_document 30000 200 ("     ".toList) ("policy".toList) =
        some chunks ∧
      (chunks = [] ↔ ("     ".toList = [] ∨ (pyStrip ("     ".toList)).length < 10)) :=
  chunk_document_empty_iff 30000 200 ("     ".toList) ("policy".toList) (by norm_num)

/-- C7, counterexample: `char_count` is computed from the fragment
before `strip()` while `content` is the stripped fragment, so on
`"aaaa \n\n\nbbbbbb"` the first chunk has `char_count = 5` but content
`"aaaa"` of length 4. -/
theorem char_count_not_content_length :
    chunk_document 30000 200 ("aaaa \n\n\nbbbbbb".toList) ("policy".toList) =
      some [⟨1, "aaaa".toList, "policy".toList, 5, 1⟩,
        ⟨2, "bbbbbb".toList, "policy".toList, 6, 1⟩] ∧
    ¬ ∀ ck ∈ [⟨1, "aaaa".toList, "policy".toList, 5, 1⟩,
        (⟨2, "bbbbbb".toList, "policy".toList, 6, 1⟩ : Chunk)],
      ck.char_count = ck.content.length := by
  decide

/-- C7 (amended): every chunk's content is non-empty, carries no
surrounding whitespace (hence is never whitespace-only), and
`char_count` is the length of the chunk's pre-strip fragment, so
`length(content) ≤ char_count`, with equality exactly when the fragment
carried no surrounding whitespace. -/
theorem chunk_content_invariants (cs ov : Nat) (content dt : List Char)
    (chunks : List Chunk) (hcs : 200 + ov ≤ cs)
    (heq : chunk_document cs ov content dt = some chunks) :
    ∀ ck ∈ chunks, ck.content ≠ [] ∧ pyStrip ck.content = ck.content ∧
      ck.content.length ≤ ck.char_count ∧
      ∃ frag, ck.content = pyStrip frag ∧ ck.char_count = frag.length := by
  obtain ⟨chunks', h1, _, h3⟩ := chunk_document_sound cs ov hcs content dt
  rw [heq] at h1
  injection h1 with h
  subst h
  intro ck hck
  obtain ⟨frag, hcon, hne, hcc, _, _, _⟩ := h3 ck hck
  refine ⟨hne, ?_, ?_, frag, hcon, hcc⟩
  · rw [hcon, pyStrip_idem]
  · rw [hcon, hcc]
    exact pyStrip_length_le frag

theorem chunk_content_invariants_witness :
    aChunk.content ≠ [] ∧ pyStrip aChunk.content = aChunk.content ∧
      aChunk.content.length ≤ aChunk.char_count ∧
      ∃ frag, aChunk.content = pyStrip frag ∧ aChunk.char_count = frag.length :=
  chunk_content_invariants 30000 200 ("aaaa \n\n\nbbbbbb".toList)
    ("policy".toList) [aChunk, bChunk] (by norm_num) (by decide) aChunk
    (by decide)

/-! ## RequirementExtractorAgent (`agents/requirement_extractor.py`)

The regex operations of the extractor are embedded as explicit scanners
over `List Char`. Python's `re.sub`/`re.findall` scan left to right and
take non-overlapping leftmost matches; each pattern of the source is
modelled by a matcher that decides whether a match starts at the current
position (given the previous character, for `\b` word boundaries) and
how many characters it consumes. `\w`, `\d`, `[A-Za-z]` and `\s` are
modelled over ASCII, which covers the documents this code handles. -/

/-- Python regex `\w` (ASCII): letters, digits, underscore. -/
def isWordChar (c : Char) : Bool :=
  c.isAlpha || c.isDigit || c == '_'

/-- A `\b` boundary holds before a word character iff the previous
character (if any) is not a word character. -/
def boundaryBefore (prev : Option Char) : Bool :=
  match prev with
  | none => true
  | some c => !isWordChar c

/-- A `\b` boundary holds after a word character iff the next character
(if any) is not a word character. -/
def afterNonWord (xs : List Char) : Bool :=
  match xs.head? with
  | none => true
  | some c => !isWordChar c

/-- Case-insensitive literal prefix test (`pat` is given lowercase). -/
def lcPrefix (pat xs : List Char) : Bool :=
  (xs.take pat.length).map Char.toLower == pat

def digitRun (xs : List Char) : Nat := (xs.takeWhile Char.isDigit).length

def wsRun (xs : List Char) : Nat := (xs.takeWhile isPyWS).length

def letterRun (xs : List Char) : Nat := (xs.takeWhile Char.isAlpha).length

/-- Python `str.split()` with no separator: split on whitespace runs and
drop empty pieces. -/
def splitWSAux : List Char → List Char → List (List Char)
  | acc, [] => if acc.isEmpty then [] else [acc.reverse]
  | acc, c :: rest =>
    if isPyWS c then
      if acc.isEmpty then splitWSAux [] rest
      else acc.reverse :: splitWSAux [] rest
    else splitWSAux (c :: acc) rest

def pySplitWS (xs : List Char) : List (List Char) := splitWSAux [] xs

/-- Generic `re.sub` scanner: at each position, either the matcher fires
(consuming `k ≥ 1` characters and emitting its replacement) or the
character is copied; the previous character of the original string is
threaded through for `\b` tests. Fuel `|xs|` is enough because every
match of the patterns used here consumes at least one character. -/
def subScanAux (m : Option Char → List Char → Option (Nat × List Char)) :
    Nat → Option Char → List Char → List Char
  | 0, _, xs => xs
  | _ + 1, _, [] => []
  | fuel + 1, prev, c :: rest =>
    match m prev (c :: rest) with
    | some (k, repl) =>
      repl ++ subScanAux m fuel (((c :: rest).take k).getLast?) ((c :: rest).drop k)
    | none => c :: subScanAux m fuel (some c) rest

def subScan (m : Option Char → List Char → Option (Nat × List Char))
    (xs : List Char) : List Char :=
  subScanAux m xs.length none xs

/-- Noise pattern 1, `\b(page \d+|pg\. \d+)\b` (IGNORECASE): the two
alternatives differ at their second character, so at most one can start
at a position; the trailing `\b` forces a non-word character after the
maximal digit run (shorter digit runs always end before a digit, so
backtracking cannot help). -/
def matchNoisePage (prev : Option Char) (xs : List Char) : Option (Nat × List Char) :=
  if boundaryBefore prev then
    if lcPrefix ("page ".toList) xs then
      let r := digitRun (xs.drop 5)
      if 0 < r && afterNonWord (xs.drop (5 + r)) then some (5 + r, [' ']) else none
    else if lcPrefix ("pg. ".toList) xs then
      let r := digitRun (xs.drop 4)
      if 0 < r && afterNonWord (xs.drop (4 + r)) then some (4 + r, [' ']) else none
    else none
  else none

/-- Noise pattern 2 (bare dates): one or two digits, a slash or dash,
one or two digits, a slash or dash, two to four digits, with `\b` at
both ends. Each bounded repeat must cover the whole maximal digit run
(a shorter prefix is followed by a digit, failing the separator or the
final `\b`). -/
def matchNoiseDate (prev : Option Char) (xs : List Char) : Option (Nat × List Char) :=
  if boundaryBefore prev then
    let r1 := digitRun xs
    if 1 ≤ r1 && r1 ≤ 2 then
      match (xs.drop r1).head? with
      | some c1 =>
        if c1 == '/' || c1 == '-' then
          let r2 := digitRun (xs.drop (r1 + 1))
          if 1 ≤ r2 && r2 ≤ 2 then
            match (xs.drop (r1 + 1 + r2)).head? with
            | some c2 =>
              if c2 == '/' || c2 == '-' then
                let r3 := digitRun (xs.drop (r1 + r2 + 2))
                if 2 ≤ r3 && r3 ≤ 4 && afterNonWord (xs.drop (r1 + r2 + 2 + r3)) then
                  some (r1 + r2 + 2 + r3, [' '])
                else none
              else none
            | none => none
          else none
        else none
      | none => none
    else none
  else none

/-- Character class `[\d\.\-\(\)]` of noise pattern 3. -/
def isBulletChar (c : Char) : Bool :=
  c.isDigit || c == '.' || c == '-' || c == '(' || c == ')'

/-- Noise pattern 3, `^\s*[\d\.\-\(\)]+\s*$`: without `re.MULTILINE`
the anchors bind to the whole string, so the pattern fires only when
the entire content is whitespace around one run of digits/bullets
(`$` before a final newline is subsumed because `\n` is whitespace). -/
def isBulletLine (xs : List Char) : Bool :=
  let a := xs.dropWhile isPyWS
  let b := a.takeWhile isBulletChar
  let c := a.dropWhile isBulletChar
  !b.isEmpty && c.all isPyWS

def subBulletLine (xs : List Char) : List Char :=
  if isBulletLine xs then [' '] else xs

def figWords : List (List Char) :=
  ["figure", "table", "chart", "appendix"].map String.toList

/-- Noise pattern 4, `\b(figure|table|chart|appendix)\s+\d+\b`
(IGNORECASE): the alternatives have distinct first letters and the
whitespace and digit runs must be maximal (backtracking into a run
lands on a character of the same class and fails). -/
def matchNoiseFig (prev : Option Char) (xs : List Char) : Option (Nat × List Char) :=
  if boundaryBefore prev then
    match figWords.find? (fun w => lcPrefix w xs) with
    | some w =>
      let rws := wsRun (xs.drop w.length)
      let d := digitRun (xs.drop (w.length + rws))
      if 0 < rws && 0 < d && afterNonWord (xs.drop (w.length + rws + d)) then
        some (w.length + rws + d, [' '])
      else none
    | none => none
  else none

/-- Noise pattern 5, `\s{3,}`. -/
def matchNoiseWS (_ : Option Char) (xs : List Char) : Option (Nat × List Char) :=
  let r := wsRun xs
  if 3 ≤ r then some (r, [' ']) else none

/-- Noise pattern 6, `_{3,}`. -/
def matchNoiseUS (_ : Option Char) (xs : List Char) : Option (Nat × List Char) :=
  let r := (xs.takeWhile (· == '_')).length
  if 3 ≤ r then some (r, [' ']) else none

/-- `re.sub(r'\s+', ' ', content)`: collapse whitespace runs. -/
def wsCollapseAux : Nat → List Char → List Char
  | 0, xs => xs
  | _ + 1, [] => []
  | fuel + 1, c :: rest =>
    if isPyWS c then ' ' :: wsCollapseAux fuel (rest.dropWhile isPyWS)
    else c :: wsCollapseAux fuel rest

def wsCollapse (xs : List Char) : List Char := wsCollapseAux xs.length xs

/-- `re.sub(r'([a-z])([A-Z])', r'\1 \2', content)`: insert a space at
lower-to-upper transitions; matches consume both characters (the second
character of a match is upper case and hence can never start the next
match, so this agrees with non-overlapping scanning). -/
def camelSub : List Char → List Char
  | a :: b :: rest =>
    if a.isLower && b.isUpper then a :: ' ' :: b :: camelSub rest
    else a :: camelSub (b :: rest)
  | xs => xs

/-- `re.sub(r'(\d)([A-Za-z])', r'\1 \2', content)`. -/
def digitAlphaSub : List Char → List Char
  | a :: b :: rest =>
    if a.isDigit && b.isAlpha then a :: ' ' :: b :: digitAlphaSub rest
    else a :: digitAlphaSub (b :: rest)
  | xs => xs

/-- `re.sub(r'([A-Za-z])(\d)', r'\1 \2', content)`. -/
def alphaDigitSub : List Char → List Char
  | a :: b :: rest =>
    if a.isAlpha && b.isDigit then a :: ' ' :: b :: alphaDigitSub rest
    else a :: alphaDigitSub (b :: rest)
  | xs => xs

/-- `re.sub(r'\.(?=[A-Z])', '. ', content)`: the lookahead consumes
nothing, so scanning resumes at the capital letter. -/
def dotUpperSub : List Char → List Char
  | '.' :: b :: rest =>
    if b.isUpper then '.' :: ' ' :: dotUpperSub (b :: rest)
    else '.' :: dotUpperSub (b :: rest)
  | a :: rest => a :: dotUpperSub rest
  | [] => []

/-- `_preprocess_content` (lines 47-67): noise removal in the order of
`self.noise_patterns`, whitespace normalization, the three word-join
fixes, the sentence-period fix, and a final strip. -/
def preprocess (content : List Char) : List Char :=
  if pyStrip content = [] then content
  else
    let c1 := subScan matchNoisePage content
    let c2 := subScan matchNoiseDate c1
    let c3 := subBulletLine c2
    let c4 := subScan matchNoiseFig c3
    let c5 := subScan matchNoiseWS c4
    let c6 := subScan matchNoiseUS c5
    let c7 := wsCollapse c6
    let c8 := camelSub c7
    let c9 := digitAlphaSub c8
    let c10 := alphaDigitSub c9
    pyStrip (dotUpperSub c10)

/-! ### Quality assessment (`_assess_content_quality`, lines 69-105) -/

/-- The `self.regulatory_keywords` table (lines 39-45), flattened in
its Python insertion order (only the total count is used). -/
def regulatoryKeywords : List (List Char) :=
  (["must", "shall", "required", "mandatory", "obligated", "necessary",
    "prohibited", "forbidden", "not permitted", "shall not", "must not",
    "should", "may", "could", "recommended", "advisable",
    "immediately", "within", "by", "before", "after", "during",
    "minimum", "maximum", "at least", "no more than", "exceeds",
    "below"]).map String.toList

/-- `len(re.findall(rf'\b{keyword}\b', content, re.IGNORECASE))`:
non-overlapping scan counting case-insensitive occurrences of the
keyword delimited by word boundaries (every keyword starts and ends
with a letter). -/
def countOccWB (kw : List Char) : Nat → Option Char → List Char → Nat
  | 0, _, _ => 0
  | _ + 1, _, [] => 0
  | fuel + 1, prev, c :: rest =>
    if boundaryBefore prev && lcPrefix kw (c :: rest) &&
        afterNonWord ((c :: rest).drop kw.length) then
      1 + countOccWB kw fuel (((c :: rest).take kw.length).getLast?)
        ((c :: rest).drop kw.length)
    else countOccWB kw fuel (some c) rest

def countWB (kw xs : List Char) : Nat := countOccWB kw xs.length none xs

def regulatoryCount (xs : List Char) : Nat :=
  (regulatoryKeywords.map (fun kw => countWB kw xs)).sum

/-- Characters of the sentence-split class `[.!?]`. -/
def isSentTerm (c : Char) : Bool := c == '.' || c == '!' || c == '?'

/-- `re.split(r'[.!?]+', content)`: split on maximal runs of sentence
terminators (empty pieces included, as in Python). -/
def sentSplitAux : Nat → List Char → List Char → List (List Char)
  | _, acc, [] => [acc.reverse]
  | 0, acc, xs => [acc.reverse ++ xs]
  | fuel + 1, acc, c :: rest =>
    if isSentTerm c then acc.reverse :: sentSplitAux fuel [] (rest.dropWhile isSentTerm)
    else sentSplitAux fuel (c :: acc) rest

def sentSplit (xs : List Char) : List (List Char) := sentSplitAux xs.length [] xs

/-- The punctuation allowed by the special-character class
`[^\w\s.,!?;:-]` of line 88. -/
def isAllowedPunct (c : Char) : Bool :=
  c == '.' || c == ',' || c == '!' || c == '?' || c == ';' || c == ':' || c == '-'

/-- `len(re.findall(r'[^\w\s.,!?;:-]', content))`: the number of
characters outside word characters, whitespace and the punctuation
list. Note that `\w` includes the underscore. -/
def specialCount (xs : List Char) : Nat :=
  xs.countP (fun c => !(isWordChar c || isPyWS c || isAllowedPunct c))

/-- The quality-assessment record of `_assess_content_quality`. The
Python floats are modelled by exact rationals (the arithmetic here is
sums, products and two divisions, and no claim depends on float
rounding). -/
structure Quality where
  word_count : Nat
  regulatory_indicators : Nat
  coherent_sentences : Nat
  quality_score : ℚ
  needs_splitting : Bool
  likely_corrupted : Bool
  deriving Repr, DecidableEq

/-- `_assess_content_quality(content)` (lines 69-105). Python computes
`avg_word_length`, `special_char_ratio` and `quality_score` in floats
and branches on `avg_word_length > 3` and on
`special_char_ratio > 0.3 or quality_score < 20`; over the exact
rationals of this model those comparisons are equivalent to the integer
comparisons used below (proved in `quality_score_formula` and
`likely_corrupted_iff`), which keeps the definition evaluable by the
kernel (Mathlib's `ℚ` arithmetic does not reduce definitionally). -/
def assessContentQuality (content : List Char) : Quality :=
  let words := pySplitWS content
  let wc := words.length
  let sumLen := (words.map List.length).sum
  let reg := regulatoryCount content
  let coherent := (sentSplit content).countP (fun s => 3 < (pySplitWS s).length)
  let sCount := specialCount content
  let lenM := max content.length 1
  let wcM := max wc 1
  let avgBonus : Nat := if 3 * wcM < sumLen then 20 else 10
  let wcBonus : Nat := if 50 < wc ∧ wc < 1000 then 50 else 20
  let base : Nat := reg * 10 + coherent * 5 + wcBonus + avgBonus
  { word_count := wc
    regulatory_indicators := reg
    coherent_sentences := coherent
    quality_score := min 100 ((base : ℚ) - (100 * sCount : ℚ) / (lenM : ℚ))
    needs_splitting := decide (2500 < wc)
    likely_corrupted :=
      decide (3 * lenM < 10 * sCount) ||
        decide ((base : Int) * lenM < 20 * lenM + 100 * sCount) }

/-! ### Requirement records and the pattern-fallback tier -/

/-- One requirement record. Python builds these as dicts whose key sets
differ between tiers; keys absent from a tier's dict are `none` here
(`requires_manual_review` is only ever set to `True`). -/
structure Req where
  id : List Char
  requirement : List Char
  category : List Char
  priority : List Char
  reference : List Char
  keywords : List (List Char)
  chunk_id : List Char
  extraction_method : List Char
  requirement_type : Option (List Char) := none
  deadline : Option (List Char) := none
  applies_to : Option (List Char) := none
  content_hash : Option (List Char) := none
  error : Option (List Char) := none
  requires_manual_review : Bool := false
  parent_chunk_id : Option (List Char) := none
  sub_chunk_index : Option Nat := none
  deriving Repr, DecidableEq

/-- Python `f'{n:03d}'`. -/
def pad3 (n : Nat) : List Char :=
  let s := (toString n).toList
  List.replicate (3 - s.length) '0' ++ s

/-- `category_keywords` of `_classify_requirement_category`
(lines 446-456), in Python dict insertion order. -/
def categoryTable : List (List Char × List (List Char)) :=
  [("capital_adequacy", ["capital", "tier 1", "tier 2", "capital ratio", "adequacy", "buffer"]),
    ("risk_management", ["risk", "risk management", "risk assessment", "risk control", "exposure"]),
    ("reporting", ["report", "reporting", "disclosure", "submit", "filing", "notification"]),
    ("liquidity", ["liquidity", "liquid assets", "funding", "cash", "liquidity ratio"]),
    ("governance", ["governance", "board", "management", "oversight", "supervision"]),
    ("operational", ["operational", "procedures", "controls", "processes", "systems"]),
    ("credit_risk", ["credit risk", "lending", "loan", "default", "credit assessment"]),
    ("market_risk", ["market risk", "trading", "market exposure", "position"]),
    ("compliance", ["compliance", "regulatory", "regulation", "authorized", "license"])
  ].map (fun p => (p.1.toList, p.2.map String.toList))

/-- `_classify_requirement_category(text)` (lines 442-462): first
category, in table order, with a keyword occurring as a substring of the
lowercased text; default `general`. -/
def classifyCategory (text : List Char) : List Char :=
  let tl := text.map Char.toLower
  match categoryTable.find? (fun p => p.2.any (fun k => containsSub k tl)) with
  | some p => p.1
  | none => "general".toList

def actionKeywords : List (List Char) :=
  ["assess", "monitor", "report", "maintain", "establish", "ensure",
    "implement", "comply"].map String.toList

def financialTerms : List (List Char) :=
  ["capital", "risk", "liquidity", "exposure", "ratio", "threshold",
    "limit", "buffer"].map String.toList

def entityTerms : List (List Char) :=
  ["bank", "institution", "entity", "firm", "organization"].map String.toList

/-- One alternative of the time pattern
`\b(annual|quarterly|monthly|daily|immediate|within \d+)\b` at the
current position of the already-lowercased text (the literals have
distinct first letters, so alternation order cannot matter). -/
def timePatAt (xs : List Char) : Option (List Char) :=
  match (["annual", "quarterly", "monthly", "daily", "immediate"].map
      String.toList).find?
      (fun w => w.isPrefixOf xs && afterNonWord (xs.drop w.length)) with
  | some w => some w
  | none =>
    if ("within ".toList).isPrefixOf xs then
      let d := digitRun (xs.drop 7)
      if 0 < d && afterNonWord (xs.drop (7 + d)) then some (xs.take (7 + d))
      else none
    else none

/-- `re.findall` for the time pattern: collect the non-overlapping
boundary-delimited matches. -/
def timeMatches : Nat → Option Char → List Char → List (List Char)
  | 0, _, _ => []
  | _ + 1, _, [] => []
  | fuel + 1, prev, c :: rest =>
    if boundaryBefore prev then
      match timePatAt (c :: rest) with
      | some w =>
        w :: timeMatches fuel (((c :: rest).take w.length).getLast?)
          ((c :: rest).drop w.length)
      | none => timeMatches fuel (some c) rest
    else timeMatches fuel (some c) rest

/-- `_extract_enhanced_keywords(text)` (lines 464-491). Python collects
the keywords in a `set`, whose iteration order before the `[:10]`
truncation is implementation-defined; the model keeps first-insertion
order (action, financial, entity, then time matches). No theorem
depends on the order. -/
def extractEnhancedKeywords (text : List Char) : List (List Char) :=
  let tl := text.map Char.toLower
  let base := (actionKeywords ++ financialTerms ++ entityTerms).filter
    (fun k => containsSub k tl)
  let times := timeMatches tl.length none tl
  ((base ++ times).dedup).take 10

/-! The fallback patterns of `_extract_fallback_requirements`
(lines 378-391) all have the shape
`(prefix [^.]* (alternatives) [^.]* \.)` with `IGNORECASE | MULTILINE |
DOTALL`. Since `[^.]*` cannot cross a `'.'` and every match ends at a
`'.'` that the scan then consumes, `finditer` yields at most one match
per `'.'`-terminated segment of the text:
* for patterns starting with `[^.]*`, the segment matches iff some
  alternative occurs inside it, and the whole segment (with its dot) is
  the match;
* for patterns starting with an alternation of words, the match runs
  from the first word occurrence that is followed, after the word, by a
  second-trigger occurrence, to the segment's dot. When two start
  alternatives match at one position (`A` and `An`), the earlier one is
  tried first and their continuations fail together, so scanning on is
  sound. -/

/-- The `'.'`-terminated segments of the text (the part after the last
dot cannot complete a match). -/
def dotSegments (text : List Char) : List (List Char) :=
  (text.splitOn '.').dropLast

/-- Segment matcher for `([^.]*(?:alts)[^.]*\.)` with literal
alternatives, case-insensitive. -/
def segAll (trigs : List (List Char)) (seg : List Char) : Option (List Char) :=
  if trigs.any (fun t => containsSub t (seg.map Char.toLower)) then
    some (seg ++ ['.'])
  else none

def segStartAux (starts trigs2 : List (List Char)) : List Char → Option (List Char)
  | [] => none
  | c :: rest =>
    match starts.find? (fun w => lcPrefix w (c :: rest)) with
    | some w =>
      if trigs2.any (fun t =>
          containsSub t (((c :: rest).drop w.length).map Char.toLower)) then
        some (c :: rest)
      else segStartAux starts trigs2 rest
    | none => segStartAux starts trigs2 rest

/-- Segment matcher for `((?:starts)[^.]*(?:trigs2)[^.]*\.)`. -/
def segStart (starts trigs2 : List (List Char)) (seg : List Char) :
    Option (List Char) :=
  (segStartAux starts trigs2 seg).map (· ++ ['.'])

/-- `∃` a position of `xs` satisfying `p` on the suffix there. -/
def anyPos (p : List Char → Bool) (xs : List Char) : Bool :=
  (List.range (xs.length + 1)).any (fun i => p (xs.drop i))

/-- Containment of `within \d+` (applied to lowercased text). -/
def trigWithinNum (xs : List Char) : Bool :=
  anyPos (fun s => ("within ".toList).isPrefixOf s && 0 < digitRun (s.drop 7)) xs

/-- Containment of `by [A-Za-z]+ \d+`: the letter run is maximal
(backtracking into it lands on a letter, not the space). -/
def trigByName (xs : List Char) : Bool :=
  anyPos (fun s => ("by ".toList).isPrefixOf s &&
    (let r := letterRun (s.drop 3)
     0 < r && (s.drop (3 + r)).head? == some ' ' &&
       0 < digitRun (s.drop (3 + r + 1)))) xs

/-- Containment of `before [A-Za-z]+`. -/
def trigBeforeName (xs : List Char) : Bool :=
  anyPos (fun s => ("before ".toList).isPrefixOf s && 0 < letterRun (s.drop 7)) xs

/-- The aggressive `requirement_patterns` (lines 380-385), as segment
matchers in source order. -/
def aggressiveSegMatchers : List (List Char → Option (List Char)) :=
  [segAll (["must", "shall", "required to", "obligated to", "mandatory"].map
      String.toList),
    segAll (["prohibited", "forbidden", "not permitted", "shall not",
      "must not"].map String.toList),
    segAll (["minimum", "maximum", "at least", "no more than"].map String.toList),
    fun seg =>
      if trigWithinNum (seg.map Char.toLower) || trigByName (seg.map Char.toLower) ||
          trigBeforeName (seg.map Char.toLower) then
        some (seg ++ ['.'])
      else none]

/-- The standard `requirement_patterns` (lines 387-391), as segment
matchers in source order. -/
def standardSegMatchers : List (List Char → Option (List Char)) :=
  [segStart (["banks", "institutions", "entities"].map String.toList)
      (["must", "shall", "required"].map String.toList),
    segStart (["the", "a", "an"].map String.toList)
      (["requirement", "obligation"].map String.toList),
    segAll (["compliance with", "adherence to"].map String.toList)]

/-- All matches, pattern-major as in the source's
`for pattern in requirement_patterns: for match in re.finditer(...)`. -/
def patternSpans (pats : List (List Char → Option (List Char)))
    (text : List Char) : List (List Char) :=
  pats.flatMap (fun pat => (dotSegments text).filterMap pat)

/-- The spans surviving `match.group(1).strip()` and the
`20 < len < 500` filter (lines 398-399). -/
def fallbackSpans (aggressive : Bool) (text : List Char) : List (List Char) :=
  let pats := if aggressive then aggressiveSegMatchers else standardSegMatchers
  ((patternSpans pats text).map pyStrip).filter
    (fun t => 20 < t.length && t.length < 500)

/-- One fallback record (lines 401-418); `n` is the running `req_id`. -/
def mkFallbackReq (md5 : List Char → List Char) (cid reqText : List Char)
    (n : Nat) : Req :=
  { id := cid ++ "_FALLBACK".toList ++ pad3 n
    requirement := reqText
    category := classifyCategory reqText
    priority :=
      if (["must", "shall", "mandatory", "required"].map String.toList).any
          (fun w => containsSub w (reqText.map Char.toLower)) then "high".toList
      else "medium".toList
    reference := "Chunk ".toList ++ cid
    keywords := extractEnhancedKeywords reqText
    chunk_id := cid
    extraction_method := "enhanced_fallback".toList
    content_hash := some (md5 reqText) }

def numberSpans (md5 : List Char → List Char) (cid : List Char) :
    Nat → List (List Char) → List Req
  | _, [] => []
  | n, t :: rest => mkFallbackReq md5 cid t n :: numberSpans md5 cid (n + 1) rest

/-- The pattern-matching stage of `_extract_fallback_requirements` for
one mode (lines 376-419). -/
def fbRecordsOnce (md5 : List Char → List Char) (text cid : List Char)
    (aggressive : Bool) : List Req :=
  numberSpans md5 cid 1 (fallbackSpans aggressive text)

/-- The last-resort summary record (lines 425-437). -/
def summaryReq (text cid : List Char) : Req :=
  let preview := if 300 < text.length then text.take 300 ++ "...".toList else text
  { id := cid ++ "_SUMMARY001".toList
    requirement :=
      "Manual review required - potential regulatory content: ".toList ++ preview
    category := "review_required".toList
    priority := "low".toList
    reference := "Chunk ".toList ++ cid
    keywords := ["manual_review".toList]
    chunk_id := cid
    extraction_method := "summary_fallback".toList }

/-- `_extract_fallback_requirements(response_text, chunk_id, aggressive)`
(lines 372-440): no standard match retries aggressively; no match at
all yields exactly the summary record. -/
def extractFallbackRequirements (md5 : List Char → List Char)
    (text cid : List Char) : Bool → List Req
  | true =>
    let reqs := fbRecordsOnce md5 text cid true
    if reqs.isEmpty then [summaryReq text cid] else reqs
  | false =>
    let reqs := fbRecordsOnce md5 text cid false
    if reqs.isEmpty then extractFallbackRequirements md5 text cid true else reqs
  termination_by b => if b then 0 else 1

/-! ### JSON cleaning, parsing tiers and validation -/

/-- Values of the Python `json` module. `json.loads` itself is standard
library code, external to src, and is a parameter of the embedding
(`ExtDeps.jsonLoads`). -/
inductive JVal where
  | str (s : List Char)
  | num (q : ℚ)
  | bool (b : Bool)
  | null
  | arr (items : List JVal)
  | obj (fields : List (List Char × JVal))

def lbrace : Char := Char.ofNat 123

def rbrace : Char := Char.ofNat 125

def backtick : Char := Char.ofNat 96

def singleQuote : Char := Char.ofNat 39

/-- Python dict lookup `d.get(key)` on a parsed object. -/
def jGet (fields : List (List Char × JVal)) (key : List Char) : Option JVal :=
  (fields.find? (fun kv => kv.1 == key)).map (·.2)

/-- `req.get(key, default)` where a string is expected. A present
non-string value is modelled by the default; the Python code would keep
the value and raise later when string methods are called on it — no
claim exercises that case. -/
def getStrD (fields : List (List Char × JVal)) (key dflt : List Char) : List Char :=
  match jGet fields key with
  | some (.str s) => s
  | some _ => dflt
  | none => dflt

/-- `req.get('keywords', [])`; non-string entries are dropped in the
model (Python would keep them as-is, unexercised by any claim). -/
def getKeywords (fields : List (List Char × JVal)) : List (List Char) :=
  match jGet fields ("keywords".toList) with
  | some (.arr items) =>
    items.filterMap (fun v => match v with | .str s => some s | _ => none)
  | _ => []

/-- One match of the fence pattern `(three backticks)(?:json)?\s*|\s*(three
backticks)` of `_clean_json_response` (line 293): the first alternative
fires at a backtick, the second consumes a maximal whitespace run that
is followed by backticks. -/
def matchFence (_ : Option Char) (xs : List Char) : Option (Nat × List Char) :=
  if [backtick, backtick, backtick].isPrefixOf xs then
    let j := if ("json".toList).isPrefixOf (xs.drop 3) then 4 else 0
    some (3 + j + wsRun (xs.drop (3 + j)), [])
  else
    let w := wsRun xs
    if 0 < w && [backtick, backtick, backtick].isPrefixOf (xs.drop w) then
      some (w + 3, [])
    else none

def pyFindChar (c : Char) (xs : List Char) : Int :=
  match findSub [c] xs with
  | some i => (i : Int)
  | none => -1

/-- Lines 296-303 of `_clean_json_response`: cut before the first `{`
(only when it is not at position 0) and after the last `}` (only when
it is not at position 0). -/
def truncBraces (c0 : List Char) : List Char :=
  let fb := pyFindChar lbrace c0
  let c1 := if 0 < fb then pySlice c0 fb (c0.length : Int) else c0
  let lb := rfindSub [rbrace] c1
  if 0 < lb then pySlice c1 0 (lb + 1) else c1

/-- `re.sub(r',(\s*[}\]])', r'\1', ...)` (line 306): a comma, a maximal
whitespace run, then a closing brace or bracket; the comma is removed. -/
def matchTrailComma (_ : Option Char) (xs : List Char) : Option (Nat × List Char) :=
  match xs with
  | c :: rest =>
    if c == ',' then
      let w := wsRun rest
      match (rest.drop w).head? with
      | some b =>
        if b == rbrace || b == ']' then some (1 + w + 1, rest.take w ++ [b])
        else none
      | none => none
    else none
  | [] => none

def isQuote (c : Char) : Bool := c == '"' || c == singleQuote

/-- `re.sub(r'(["\x27])\s*\n\s*(["\x27])', r'\1 \2', ...)` (line 307):
a quote, a whitespace run containing a newline, a quote; the run is
replaced by one space. -/
def matchBrokenStr (_ : Option Char) (xs : List Char) : Option (Nat × List Char) :=
  match xs with
  | q1 :: rest =>
    if isQuote q1 then
      let w := wsRun rest
      if 0 < w && (rest.take w).contains '\n' then
        match (rest.drop w).head? with
        | some q2 => if isQuote q2 then some (1 + w + 1, [q1, ' ', q2]) else none
        | none => none
      else none
    else none
  | [] => none

/-- `_clean_json_response(response_text)` (lines 290-309). -/
def cleanJsonResponse (response : List Char) : List Char :=
  let c0 := subScan matchFence (pyStrip response)
  let c1 := truncBraces c0
  let c2 := subScan matchTrailComma c1
  subScan matchBrokenStr c2

/-- One match of `r'\{[^{}]*"requirement"[^{}]*\}'` (line 315, DOTALL):
an opening brace, a maximal brace-free body that contains the quoted key
`"requirement"`, and a closing brace. -/
def altJsonAt (xs : List Char) : Option Nat :=
  match xs with
  | c :: rest =>
    if c == lbrace then
      let body := rest.takeWhile (fun d => !(d == lbrace || d == rbrace))
      match (rest.drop body.length).head? with
      | some b =>
        if b == rbrace && containsSub ("\"requirement\"".toList) body then
          some (body.length + 2)
        else none
      | none => none
    else none
  | [] => none

/-- `re.findall` of the bracket-fragment pattern: the non-overlapping
matches, left to right. -/
def altJsonMatches : Nat → List Char → List (List Char)
  | 0, _ => []
  | _ + 1, [] => []
  | fuel + 1, c :: rest =>
    match altJsonAt (c :: rest) with
    | some k => (c :: rest).take k :: altJsonMatches fuel ((c :: rest).drop k)
    | none => altJsonMatches fuel rest

/-- `req_data['id'] = req_data.get('id', default)` (line 322): keep an
existing `id`, otherwise add the default. -/
def setDefaultId (fields : List (List Char × JVal)) (dflt : List Char) :
    List (List Char × JVal) :=
  if (jGet fields ("id".toList)).isSome then fields
  else fields ++ [("id".toList, .str dflt)]

/-- The collection loop of `_alternative_json_parsing` (lines 317-325):
parse each fragment, keep the dicts that contain a `requirement` key,
defaulting their `id`; the enumeration index runs over all fragments. -/
def altCollect (jsonLoads : List Char → Option JVal) (cid : List Char) :
    Nat → List (List Char) → List JVal
  | _, [] => []
  | i, mtext :: rest =>
    match jsonLoads mtext with
    | some (.obj fields) =>
      if (jGet fields ("requirement".toList)).isSome then
        .obj (setDefaultId fields (cid ++ "_ALT".toList ++ pad3 (i + 1))) ::
          altCollect jsonLoads cid (i + 1) rest
      else altCollect jsonLoads cid (i + 1) rest
    | _ => altCollect jsonLoads cid (i + 1) rest

/-- `_validate_enhanced_requirements(requirements, chunk_id)`
(lines 336-370); `i` is the enumeration index. -/
def validateAux (md5 : List Char → List Char) (cid : List Char) :
    Nat → List JVal → List Req
  | _, [] => []
  | i, item :: rest =>
    match item with
    | .obj fields =>
      let reqText := pyStrip (getStrD fields ("requirement".toList) [])
      if reqText.isEmpty || reqText.length < 10 then validateAux md5 cid (i + 1) rest
      else
        { id := getStrD fields ("id".toList) (cid ++ "_REQ".toList ++ pad3 (i + 1))
          requirement := reqText
          category := getStrD fields ("category".toList) ("general".toList)
          priority := getStrD fields ("priority".toList) ("medium".toList)
          reference := getStrD fields ("reference".toList) ("Chunk ".toList ++ cid)
          keywords := getKeywords fields
          requirement_type :=
            some (getStrD fields ("requirement_type".toList) ("mandatory".toList))
          deadline := some (getStrD fields ("deadline".toList) [])
          applies_to := some (getStrD fields ("applies_to".toList) [])
          chunk_id := cid
          extraction_method := "enhanced_llm".toList
          content_hash := some (md5 reqText) } :: validateAux md5 cid (i + 1) rest
    | _ => validateAux md5 cid (i + 1) rest

/-- `_alternative_json_parsing(response_text, chunk_id)`
(lines 311-334). -/
def alternativeJsonParsing (jsonLoads : List Char → Option JVal)
    (md5 : List Char → List Char) (response cid : List Char) : List Req :=
  let collected := altCollect jsonLoads cid 0 (altJsonMatches response.length response)
  if collected.isEmpty then extractFallbackRequirements md5 response cid false
  else validateAux md5 cid 0 collected

/-- `_parse_enhanced_json_response(response_text, chunk_id)`
(lines 268-288): clean, parse, accept only a dict with a `requirements`
list; otherwise (or on a parse failure) try the alternative strategies. -/
def parseEnhancedJsonResponse (jsonLoads : List Char → Option JVal)
    (md5 : List Char → List Char) (response cid : List Char) : List Req :=
  match jsonLoads (cleanJsonResponse response) with
  | some (.obj fields) =>
    match jGet fields ("requirements".toList) with
    | some (.arr items) => validateAux md5 cid 0 items
    | _ => alternativeJsonParsing jsonLoads md5 response cid
  | _ => alternativeJsonParsing jsonLoads md5 response cid

/-! ### Prompts, external dependencies and `extract_requirements` -/

/-- `_get_enhanced_system_prompt()` (lines 193-213). -/
def enhancedSystemPrompt : List Char :=
  ("You are an expert regulatory compliance analyst specializing in financial regulations. \n\nYour task is to extract specific, actionable compliance requirements from regulatory documents. \n\nEXPERTISE AREAS:\n- Banking regulations (Basel III, CRD IV, etc.)\n- Risk management frameworks\n- Capital adequacy requirements\n- Reporting and disclosure obligations\n- Governance and operational requirements\n\nEXTRACTION PRINCIPLES:\n1. Focus ONLY on explicit obligations (must, shall, required, etc.)\n2. Distinguish between mandatory requirements and recommendations\n3. Preserve exact regulatory language when possible\n4. Identify specific compliance actions, not general descriptions\n5. Extract quantitative thresholds, deadlines, and specific criteria\n\nAlways respond with valid JSON only. Be precise and comprehensive.").toList

/-- The quality-adaptive `extraction_focus` of
`_create_enhanced_extraction_prompt` (lines 218-224). -/
def extractionFocus (qa : Quality) : List Char :=
  if 10 < qa.regulatory_indicators then
    ("This appears to be regulatory-dense content. Pay special attention to compliance obligations.").toList
  else if qa.word_count < 100 then
    ("This is a short text segment. Extract any explicit requirements, even brief ones.").toList
  else
    ("Analyze this content thoroughly for any compliance requirements.").toList

/-- `_create_enhanced_extraction_prompt(content, chunk_id,
quality_assessment)` (lines 215-266); the braces of the JSON example are
written `\x7b`/`\x7d`. -/
def createEnhancedExtractionPrompt (content cid : List Char) (qa : Quality) :
    List Char :=
  ("\n").toList ++ extractionFocus qa ++
  ("\n\nREGULATORY TEXT:\n").toList ++ content ++
  ("\n\nEXTRACTION TASK:\nExtract all specific compliance requirements that financial institutions must follow.\n\nMANDATORY INDICATORS TO LOOK FOR:\n- \"must\", \"shall\", \"required to\", \"obligated to\", \"mandatory\"\n- \"prohibited from\", \"shall not\", \"must not\", \"forbidden\"\n- Specific deadlines, thresholds, or quantitative requirements\n- Reporting obligations and submission requirements\n- Risk management and control requirements\n\nJSON RESPONSE FORMAT:\n\x7b\n    \"chunk_id\": \"").toList ++
  cid ++
  ("\",\n    \"requirements\": [\n        \x7b\n            \"id\": \"REQ001\",\n            \"requirement\": \"Complete exact requirement text with all details\",\n            \"category\": \"risk_management|capital_adequacy|reporting|governance|operational|liquidity|credit_risk|market_risk|compliance\",\n            \"priority\": \"high|medium|low\",\n            \"reference\": \"Specific section/paragraph/article reference\",\n            \"keywords\": [\"relevant\", \"keywords\", \"extracted\"],\n            \"requirement_type\": \"mandatory|prohibitive|conditional|quantitative|procedural\",\n            \"deadline\": \"If any deadline mentioned\",\n            \"applies_to\": \"Who this requirement applies to\"\n        \x7d\n    ]\n\x7d\n\nCRITICAL INSTRUCTIONS:\n- Respond with ONLY the JSON object\n- No markdown, no explanations, no additional text\n- Include ALL explicit requirements found\n- If no requirements found, return empty requirements array\n- Ensure all JSON is properly escaped and formatted\n").toList

/-- The chunk dict consumed by `extract_requirements`: the fields read
via `chunk.get('content', '')` and `chunk.get('chunk_id', 'unknown')`. -/
structure PyChunk where
  content : List Char
  chunk_id : List Char
  deriving Repr, DecidableEq

/-- The external collaborators of the extractor: the generative model
(`self.llm.invoke`, fed the system prompt and the user prompt, indexed
by the attempt number; `Except.error` is a raised exception carrying
`str(e)`), the standard library `json.loads` (`none` is a
`JSONDecodeError`), the langchain `RecursiveCharacterTextSplitter`'s
`split_text`, and the 8-hex-character md5 digest of `hashlib`. -/
structure ExtDeps where
  gen : List Char → List Char → Nat → Except (List Char) (List Char)
  jsonLoads : List Char → Option JVal
  splitText : List Char → List (List Char)
  md5hex8 : List Char → List Char

/-- The `for attempt in range(2)` loop of `extract_requirements`
(lines 137-157): an empty parse on attempt 0 retries, attempt 1 returns
its parse result even if empty; a generation failure on attempt 0
continues, on attempt 1 it re-raises. -/
def runAttempts (E : ExtDeps) (sysP userP cid : List Char) :
    Except (List Char) (List Req) :=
  match E.gen sysP userP 0 with
  | .ok resp0 =>
    let reqs0 := parseEnhancedJsonResponse E.jsonLoads E.md5hex8 (pyStrip resp0) cid
    if reqs0.isEmpty then
      match E.gen sysP userP 1 with
      | .ok resp1 =>
        .ok (parseEnhancedJsonResponse E.jsonLoads E.md5hex8 (pyStrip resp1) cid)
      | .error m => .error m
    else .ok reqs0
  | .error _ =>
    match E.gen sysP userP 1 with
    | .ok resp1 =>
      .ok (parseEnhancedJsonResponse E.jsonLoads E.md5hex8 (pyStrip resp1) cid)
    | .error m => .error m

/-- `_create_error_fallback(chunk, error_msg)` (lines 493-508). -/
def createErrorFallback (chunk : PyChunk) (errMsg : List Char) : List Req :=
  [{ id := chunk.chunk_id ++ "_ERROR001".toList
     requirement := "EXTRACTION ERROR - Manual review required: ".toList ++ errMsg ++
       ". Content preview: ".toList ++ chunk.content.take 200 ++ "...".toList
     category := "error".toList
     priority := "high".toList
     reference := "Chunk ".toList ++ chunk.chunk_id
     keywords := ["manual_review".toList, "extraction_error".toList,
       "system_failure".toList]
     chunk_id := chunk.chunk_id
     extraction_method := "error_fallback".toList
     error := some errMsg
     requires_manual_review := true }]

/-- Tagging of sub-chunk results in `_process_large_chunk`
(lines 184-187). -/
def tagSub (cid : List Char) (i : Nat) (rs : List Req) : List Req :=
  rs.map (fun r => { r with parent_chunk_id := some cid, sub_chunk_index := some (i + 1) })

/-- The sub-chunk loop of `_process_large_chunk` (lines 169-191):
recursively extract each sub-chunk under id `{cid}_SUB{i+1}` and
concatenate the tagged results in order. -/
def subChunksLoop (extractFn : PyChunk → Option (List Req)) (cid : List Char) :
    Nat → List (List Char) → Option (List Req)
  | _, [] => some []
  | i, sub :: rest => do
    let rs ← extractFn { content := sub, chunk_id := cid ++ "_SUB".toList ++ (toString (i + 1)).toList }
    let tail ← subChunksLoop extractFn cid (i + 1) rest
    pure (tagSub cid i rs ++ tail)

/-- `extract_requirements(chunk)` (lines 107-163) with explicit fuel for
the recursion through `_process_large_chunk` (the source has no depth
cap; `none` models non-termination). -/
def extractAux (E : ExtDeps) : Nat → PyChunk → Option (List Req)
  | 0, _ => none
  | fuel + 1, chunk =>
    if pyStrip chunk.content = [] then some []
    else
      let processed := preprocess chunk.content
      let qa := assessContentQuality processed
      if qa.likely_corrupted then
        some (extractFallbackRequirements E.md5hex8 processed chunk.chunk_id true)
      else if qa.needs_splitting then
        subChunksLoop (extractAux E fuel) chunk.chunk_id 0 (E.splitText processed)
      else
        match runAttempts E enhancedSystemPrompt
            (createEnhancedExtractionPrompt processed chunk.chunk_id qa)
            chunk.chunk_id with
        | .ok reqs => some reqs
        | .error m => some (createErrorFallback chunk m)

/-- `extract_requirements` with its fuel made explicit. -/
def extract_requirements (E : ExtDeps) (fuel : Nat) (chunk : PyChunk) :
    Option (List Req) :=
  extractAux E fuel chunk

/-! ## Lemmas about the extraction cascade -/

/-- The fallback extractor never returns an empty list: when no pattern
matches it falls back to the aggressive set and finally to the summary
record. -/
lemma extractFallbackRequirements_ne_nil (md5 : List Char → List Char)
    (text cid : List Char) (aggressive : Bool) :
    extractFallbackRequirements md5 text cid aggressive ≠ [] := by
  cases aggressive with
  | true =>
    unfold extractFallbackRequirements
    by_cases h : (fbRecordsOnce md5 text cid true).isEmpty
    · simp [h]
    · simpa [h] using by simpa [List.isEmpty_iff] using h
  | false =>
    unfold extractFallbackRequirements
    by_cases h : (fbRecordsOnce md5 text cid false).isEmpty
    · simpa [h] using extractFallbackRequirements_ne_nil md5 text cid true
    · simpa [h] using by simpa [List.isEmpty_iff] using h
  termination_by if aggressive then 0 else 1

lemma altCollect_eq_nil {jl : List Char → Option JVal}
    (hjl : ∀ s, jl s = none) (cid : List Char) :
    ∀ i ms, altCollect jl cid i ms = [] := by
  intro i ms
  induction ms generalizing i with
  | nil => rfl
  | cons m rest ih =>
    unfold altCollect
    rw [hjl m]
    exact ih _

/-- When no generation output ever parses as JSON, the parse cascade
reduces to the standard-mode pattern fallback. -/
lemma parseEnhanced_of_json_none {jl : List Char → Option JVal}
    (hjl : ∀ s, jl s = none) (md5 : List Char → List Char)
    (response cid : List Char) :
    parseEnhancedJsonResponse jl md5 response cid =
      extractFallbackRequirements md5 response cid false := by
  unfold parseEnhancedJsonResponse
  rw [hjl]
  unfold alternativeJsonParsing
  rw [altCollect_eq_nil hjl]
  rfl

lemma parseEnhanced_ne_nil_of_json_none {jl : List Char → Option JVal}
    (hjl : ∀ s, jl s = none) (md5 : List Char → List Char)
    (response cid : List Char) :
    parseEnhancedJsonResponse jl md5 response cid ≠ [] := by
  rw [parseEnhanced_of_json_none hjl]
  exact extractFallbackRequirements_ne_nil md5 response cid false

lemma runAttempts_eq_of_gen0_ok {E : ExtDeps} {sysP userP cid resp0 : List Char}
    (h : E.gen sysP userP 0 = .ok resp0) :
    runAttempts E sysP userP cid =
      (if (parseEnhancedJsonResponse E.jsonLoads E.md5hex8 (pyStrip resp0) cid).isEmpty then
        (match E.gen sysP userP 1 with
          | .ok resp1 =>
            .ok (parseEnhancedJsonResponse E.jsonLoads E.md5hex8 (pyStrip resp1) cid)
          | .error m => .error m)
      else .ok (parseEnhancedJsonResponse E.jsonLoads E.md5hex8 (pyStrip resp0) cid)) := by
  unfold runAttempts
  rw [h]

lemma runAttempts_eq_of_gen0_error {E : ExtDeps} {sysP userP cid m : List Char}
    (h : E.gen sysP userP 0 = .error m) :
    runAttempts E sysP userP cid =
      (match E.gen sysP userP 1 with
        | .ok resp1 =>
          .ok (parseEnhancedJsonResponse E.jsonLoads E.md5hex8 (pyStrip resp1) cid)
        | .error m1 => .error m1) := by
  unfold runAttempts
  rw [h]

/-- With a never-parsing JSON loader, the attempt loop either fails with
the second attempt's error or returns a non-empty record list. -/
lemma runAttempts_cases {E : ExtDeps} (hjl : ∀ s, E.jsonLoads s = none)
    (sysP userP cid : List Char) :
    (∃ m, runAttempts E sysP userP cid = .error m) ∨
      (∃ rs, runAttempts E sysP userP cid = .ok rs ∧ rs ≠ []) := by
  cases h0 : E.gen sysP userP 0 with
  | ok resp0 =>
    rw [runAttempts_eq_of_gen0_ok h0,
      if_neg (by
        simpa [List.isEmpty_iff] using
          parseEnhanced_ne_nil_of_json_none hjl E.md5hex8 (pyStrip resp0) cid)]
    exact Or.inr ⟨_, rfl, parseEnhanced_ne_nil_of_json_none hjl E.md5hex8 (pyStrip resp0) cid⟩
  | error m =>
    rw [runAttempts_eq_of_gen0_error h0]
    cases h1 : E.gen sysP userP 1 with
    | ok resp1 =>
      exact Or.inr ⟨_, rfl, parseEnhanced_ne_nil_of_json_none hjl E.md5hex8 (pyStrip resp1) cid⟩
    | error m1 => exact Or.inl ⟨m1, rfl⟩

/-- A single extraction step (no splitting) returns a non-empty record
list whenever the content is not whitespace-only and the JSON loader
never parses: the corrupted path ends in the always-non-empty fallback,
a successful generation ends in the fallback through the cascade, and a
double failure ends in the error sentinel. -/
lemma extractAux_step_ne_nil {E : ExtDeps} (hjl : ∀ s, E.jsonLoads s = none)
    (chunk : PyChunk) (fuel : Nat)
    (hne : pyStrip chunk.content ≠ [])
    (hns : (assessContentQuality (preprocess chunk.content)).needs_splitting = false) :
    ∃ rs, extractAux E (fuel + 1) chunk = some rs ∧ rs ≠ [] := by
  unfold extractAux
  rw [if_neg hne]
  by_cases hc : (assessContentQuality (preprocess chunk.content)).likely_corrupted
  · rw [if_pos hc]
    exact ⟨_, rfl, extractFallbackRequirements_ne_nil _ _ _ _⟩
  · rw [if_neg hc, if_neg (by simp [hns])]
    rcases runAttempts_cases hjl enhancedSystemPrompt
        (createEnhancedExtractionPrompt (preprocess chunk.content) chunk.chunk_id
          (assessContentQuality (preprocess chunk.content))) chunk.chunk_id with
      ⟨m, hm⟩ | ⟨rs, hrs, hrs_ne⟩
    · rw [hm]
      exact ⟨_, rfl, by simp [createErrorFallback]⟩
    · rw [hrs]
      exact ⟨rs, rfl, hrs_ne⟩

/-- The sub-chunk loop returns the concatenation of per-sub-chunk
results; it is non-empty when there is at least one sub-chunk and each
extraction is non-empty. -/
lemma subChunksLoop_sound (f : PyChunk → Option (List Req)) (cid : List Char) :
    ∀ subs : List (List Char), ∀ i : Nat,
      (∀ sub ∈ subs, ∀ cid', ∃ rs, f ⟨sub, cid'⟩ = some rs ∧ rs ≠ []) →
      ∃ out, subChunksLoop f cid i subs = some out ∧ (subs ≠ [] → out ≠ []) := by
  intro subs
  induction subs with
  | nil => exact fun i _ => ⟨[], rfl, by simp⟩
  | cons sub rest ih =>
    intro i hall
    obtain ⟨rs, hrs, hrs_ne⟩ := hall sub (by simp)
      (cid ++ "_SUB".toList ++ (toString (i + 1)).toList)
    obtain ⟨tail, htail, _⟩ := ih (i + 1) (fun q hq => hall q (by simp [hq]))
    refine ⟨tagSub cid i rs ++ tail, ?_, ?_⟩
    · unfold subChunksLoop
      rw [hrs, htail]
      rfl
    · intro _
      simp only [ne_eq, List.append_eq_nil, not_and]
      intro htag
      exact absurd (by simpa [tagSub] using congrArg List.length htag)
        (by simpa using hrs_ne)

/-! ## Claims about the extractor -/

/-- C3: if the generation call fails on both attempts for a chunk that
reaches the standard path (non-empty, not judged corrupted, not
split), `extract_requirements` returns exactly the one error sentinel
built by `_create_error_fallback` — carrying the chunk id, the second
attempt's error message and a 200-character content preview — and never
propagates the failure. -/
theorem gen_double_failure_single_error_sentinel (E : ExtDeps) (chunk : PyChunk)
    (m0 m1 : List Char) (fuel : Nat)
    (hne : pyStrip chunk.content ≠ [])
    (hnc : (assessContentQuality (preprocess chunk.content)).likely_corrupted = false)
    (hns : (assessContentQuality (preprocess chunk.content)).needs_splitting = false)
    (h0 : E.gen enhancedSystemPrompt
      (createEnhancedExtractionPrompt (preprocess chunk.content) chunk.chunk_id
        (assessContentQuality (preprocess chunk.content))) 0 = .error m0)
    (h1 : E.gen enhancedSystemPrompt
      (createEnhancedExtractionPrompt (preprocess chunk.content) chunk.chunk_id
        (assessContentQuality (preprocess chunk.content))) 1 = .error m1) :
    extract_requirements E (fuel + 1) chunk = some (createErrorFallback chunk m1) ∧
      (createErrorFallback chunk m1).length = 1 ∧
      ∀ r ∈ createErrorFallback chunk m1,
        r.category = "error".toList ∧
        r.extraction_method = "error_fallback".toList ∧
        r.error = some m1 ∧
        r.chunk_id = chunk.chunk_id ∧
        r.id = chunk.chunk_id ++ "_ERROR001".toList ∧
        r.requirement = "EXTRACTION ERROR - Manual review required: ".toList ++ m1 ++
          ". Content preview: ".toList ++ chunk.content.take 200 ++ "...".toList := by
  refine ⟨?_, rfl, ?_⟩
  · unfold extract_requirements extractAux
    rw [if_neg hne, if_neg (by simp [hnc]), if_neg (by simp [hns]),
      runAttempts_eq_of_gen0_error h0, h1]
  · intro r hr
    rw [createErrorFallback, List.mem_singleton] at hr
    subst hr
    exact ⟨rfl, rfl, rfl, rfl, rfl, rfl⟩

def genAlwaysFails : List Char → List Char → Nat → Except (List Char) (List Char) :=
  fun _ _ _ => .error ("boom".toList)

def jsonLoadsNever : List Char → Option JVal := fun _ => none

def md5Const : List Char → List Char := fun _ => "00000000".toList

def splitTextId : List Char → List (List Char) := fun t => [t]

/-- Concrete failing collaborators for the witness. -/
def depsAlwaysFail : ExtDeps := ⟨genAlwaysFails, jsonLoadsNever, splitTextId, md5Const⟩

def sampleChunk : PyChunk :=
  ⟨"Banks must maintain adequate capital buffers.".toList, "1".toList⟩

theorem gen_double_failure_single_error_sentinel_witness :
    extract_requirements depsAlwaysFail 1 sampleChunk =
        some (createErrorFallback sampleChunk ("boom".toList)) ∧
      (createErrorFallback sampleChunk ("boom".toList)).length = 1 ∧
      ∀ r ∈ createErrorFallback sampleChunk ("boom".toList),
        r.category = "error".toList ∧
        r.extraction_method = "error_fallback".toList ∧
        r.error = some ("boom".toList) ∧
        r.chunk_id = sampleChunk.chunk_id ∧
        r.id = sampleChunk.chunk_id ++ "_ERROR001".toList ∧
        r.requirement = "EXTRACTION ERROR - Manual review required: ".toList ++
          "boom".toList ++ ". Content preview: ".toList ++
          sampleChunk.content.take 200 ++ "...".toList :=
  gen_double_failure_single_error_sentinel depsAlwaysFail sampleChunk
    ("boom".toList) ("boom".toList) 0 (by decide) (by decide) (by decide) rfl rfl

/-- The one generation reply used in the C2 counterexample. -/
def emptyReqsReply : List Char := ("\x7b\"requirements\": []\x7d").toList

/-- Models Python `json.loads` on the single reply of the
counterexample: `\x7b"requirements": []\x7d` parses to an object whose
`requirements` key holds an empty array; the model returns `none`
elsewhere (no other string is ever parsed in the counterexample). -/
def jsonLoadsEmptyReqs : List Char → Option JVal :=
  fun s =>
    if s = emptyReqsReply then some (.obj [("requirements".toList, .arr [])])
    else none

def genEmptyReqs : List Char → List Char → Nat → Except (List Char) (List Char) :=
  fun _ _ _ => .ok emptyReqsReply

def depsEmptyReqs : ExtDeps := ⟨genEmptyReqs, jsonLoadsEmptyReqs, splitTextId, md5Const⟩

/-- C2, counterexample: on a non-empty chunk, a generation call that
succeeds on both attempts with `\x7b"requirements": []\x7d` — a valid
reply the prompt explicitly allows ("If no requirements found, return
empty requirements array") — makes `extract_requirements` return the
empty sequence: line 150 accepts an empty parse as final on the second
attempt, so no fallback tier runs. -/
theorem extract_empty_on_successful_empty_parse :
    extract_requirements depsEmptyReqs 1 sampleChunk = some [] ∧
      pyStrip sampleChunk.content ≠ [] := by
  constructor
  · decide
  · decide

/-- C2 (amended): on empty or whitespace-only content the extractor
returns the empty sequence. On other content it returns a non-empty
sequence provided no generation reply parses as JSON (every tier then
ends in the non-empty pattern fallback, and a double generation failure
ends in the error sentinel) and, on the splitting path, the splitter
returns at least one non-whitespace sub-chunk that does not itself need
splitting. A successful generation whose parsed `requirements` list is
empty (or fully invalid) on the final attempt yields an empty result —
the case the counterexample exhibits. -/
theorem extract_empty_and_nonempty_cases (E : ExtDeps) (chunk : PyChunk) :
    (pyStrip chunk.content = [] → extract_requirements E 1 chunk = some []) ∧
      ((∀ s, E.jsonLoads s = none) →
        pyStrip chunk.content ≠ [] →
        E.splitText (preprocess chunk.content) ≠ [] →
        (∀ p ∈ E.splitText (preprocess chunk.content), pyStrip p ≠ [] ∧
          (assessContentQuality (preprocess p)).needs_splitting = false) →
        ∃ rs, extract_requirements E 2 chunk = some rs ∧ rs ≠ []) := by
  constructor
  · intro h
    unfold extract_requirements extractAux
    rw [if_pos h]
  · intro hjl hne hsubs_ne hsubs
    by_cases hc : (assessContentQuality (preprocess chunk.content)).likely_corrupted
    · -- the corrupted path skips the generation call entirely
      refine ⟨extractFallbackRequirements E.md5hex8 (preprocess chunk.content)
        chunk.chunk_id true, ?_, extractFallbackRequirements_ne_nil _ _ _ _⟩
      show extractAux E 2 chunk = _
      unfold extractAux
      rw [if_neg hne, if_pos hc]
    · by_cases hsplit : (assessContentQuality (preprocess chunk.content)).needs_splitting
      · -- the oversized path: recurse once into the sub-chunks
        have hstep : ∀ sub ∈ E.splitText (preprocess chunk.content), ∀ cid',
            ∃ rs, extractAux E 1 ⟨sub, cid'⟩ = some rs ∧ rs ≠ [] := by
          intro sub hsub cid'
          obtain ⟨hsne, hsns⟩ := hsubs sub hsub
          exact extractAux_step_ne_nil hjl ⟨sub, cid'⟩ 0 hsne hsns
        obtain ⟨out, hout, hout_ne⟩ :=
          subChunksLoop_sound (extractAux E 1) chunk.chunk_id
            (E.splitText (preprocess chunk.content)) 0 hstep
        refine ⟨out, ?_, hout_ne hsubs_ne⟩
        show extractAux E 2 chunk = some out
        unfold extractAux
        rw [if_neg hne, if_neg hc, if_pos hsplit]
        exact hout
      · obtain ⟨rs, hrs, hrs_ne⟩ :=
          extractAux_step_ne_nil hjl chunk 1 hne (by simpa using hsplit)
        exact ⟨rs, hrs, hrs_ne⟩

/-- C2 (amended) witness: a whitespace-only chunk yields `some []`, and
the sample chunk under never-parsing collaborators yields a non-empty
result. -/
theorem extract_empty_and_nonempty_cases_witness :
    extract_requirements depsAlwaysFail 1 ⟨"   ".toList, "1".toList⟩ =
        some [] ∧
      ∃ rs, extract_requirements depsAlwaysFail 2 sampleChunk = some rs ∧
        rs ≠ [] :=
  ⟨(extract_empty_and_nonempty_cases depsAlwaysFail
      ⟨"   ".toList, "1".toList⟩).1 (by decide),
   (extract_empty_and_nonempty_cases depsAlwaysFail sampleChunk).2
     (fun _ => rfl) (by decide) (by decide) (by decide)⟩

/-! ## C8: the quality-score formula -/

/-- The special-character ratio of the code: complement of `\w`
(letters, digits, underscore), whitespace and the punctuation list. -/
def codeSpecialRatio (xs : List Char) : ℚ :=
  (specialCount xs : ℚ) / ((max xs.length 1 : Nat) : ℚ)

/-- The average word length of the source, as an exact rational. -/
def avgWordLength (content : List Char) : ℚ :=
  (((pySplitWS content).map List.length).sum : ℚ) /
    ((max (pySplitWS content).length 1 : Nat) : ℚ)

/-- The spec's quality-score formula, with the special-character ratio
passed in as a parameter. -/
def specScore (content : List Char) (ratio : ℚ) : ℚ :=
  min 100 ((regulatoryCount content * 10 : ℚ) +
    ((sentSplit content).countP (fun s => 3 < (pySplitWS s).length) * 5 : ℚ) +
    (if 50 < (pySplitWS content).length ∧ (pySplitWS content).length < 1000
      then (50 : ℚ) else 20) +
    (if (3 : ℚ) < avgWordLength content then (20 : ℚ) else 10) - ratio * 100)

/-- The number of characters outside alphanumerics, whitespace and the
punctuation list — the character class as the CLAIM words it, which
unlike the code's `\w` does not exempt the underscore. -/
def claimSpecialCount (xs : List Char) : Nat :=
  xs.countP (fun c => !(c.isAlpha || c.isDigit || isPyWS c || isAllowedPunct c))

def claimSpecialRatio (xs : List Char) : ℚ :=
  (claimSpecialCount xs : ℚ) / ((max xs.length 1 : Nat) : ℚ)

/-- The claim's quality-score formula (with the claim's character
class). -/
def claimQualityScore (content : List Char) : ℚ :=
  specScore content (claimSpecialRatio content)

/-- The amended quality-score formula: the spec's formula with the
special-character class corrected to the code's `[^\w\s.,!?;:-]`. -/
def amendedQualityScore (content : List Char) : ℚ :=
  specScore content (codeSpecialRatio content)

lemma natCast_max_pos (n : Nat) : (0 : ℚ) < ((max n 1 : Nat) : ℚ) := by
  exact_mod_cast Nat.lt_of_lt_of_le Nat.zero_lt_one (le_max_right n 1)

/-- The integerized average-word-length branch of
`assessContentQuality` agrees with the comparison
`avg_word_length > 3`. -/
lemma avgBonus_cond_iff (content : List Char) :
    (3 * max (pySplitWS content).length 1 <
        ((pySplitWS content).map List.length).sum) ↔
      (3 : ℚ) < avgWordLength content := by
  rw [avgWordLength, lt_div_iff₀ (natCast_max_pos _)]
  exact_mod_cast Iff.rfl

/-- The quality score of `assessContentQuality` is exactly the spec's
formula with the code's character class. -/
lemma quality_score_formula (content : List Char) :
    (assessContentQuality content).quality_score = amendedQualityScore content := by
  unfold amendedQualityScore specScore codeSpecialRatio
  simp only [assessContentQuality]
  congr 1
  rw [div_mul_eq_mul_div, mul_comm ((specialCount content : ℚ)) 100]
  by_cases havg : 3 * max (pySplitWS content).length 1 <
      ((pySplitWS content).map List.length).sum
  · rw [if_pos havg, if_pos ((avgBonus_cond_iff content).mp havg)]
    push_cast [apply_ite ((↑·) : ℕ → ℚ)]
    ring
  · rw [if_neg havg, if_neg (fun h => havg ((avgBonus_cond_iff content).mpr h))]
    push_cast [apply_ite ((↑·) : ℕ → ℚ)]
    ring

lemma score_lt20_iff (b L : Nat) (s : ℚ) (hL : 0 < L) :
    (min 100 ((b : ℚ) - s / ((L : Nat) : ℚ)) < 20) ↔
      ((b : ℚ) * L < 20 * L + s) := by
  have hLQ : (0 : ℚ) < (L : ℚ) := by exact_mod_cast hL
  rw [min_lt_iff]
  simp only [show ¬((100 : ℚ) < 20) by norm_num, false_or]
  constructor
  · intro h
    have h2 := mul_lt_mul_of_pos_right (sub_lt_iff_lt_add.mp h) hLQ
    rw [add_mul, div_mul_cancel₀ _ (ne_of_gt hLQ)] at h2
    linarith
  · intro h
    have h3 := (div_lt_div_iff_of_pos_right hLQ).mpr h
    rw [mul_div_cancel_right₀ _ (ne_of_gt hLQ)] at h3
    rw [add_div, mul_div_cancel_right₀ _ (ne_of_gt hLQ)] at h3
    linarith [sub_lt_iff_lt_add.mpr h3]

/-- The integerized corruption test, in the abstract. -/
lemma corrupted_decide_iff (b sc L : Nat) (hL : 0 < L) :
    ((decide (3 * L < 10 * sc) ||
        decide ((b : Int) * L < 20 * L + 100 * sc)) = true) ↔
      ((3 : ℚ) / 10 < (sc : ℚ) / ((L : Nat) : ℚ) ∨
        min 100 ((b : ℚ) - (100 * sc : ℚ) / ((L : Nat) : ℚ)) < 20) := by
  simp only [Bool.or_eq_true, decide_eq_true_eq]
  refine or_congr ?_ ?_
  · rw [div_lt_div_iff₀ (by norm_num) (by exact_mod_cast hL : (0 : ℚ) < (L : ℚ)),
      mul_comm ((sc : ℚ)) 10]
    exact_mod_cast Iff.rfl
  · rw [score_lt20_iff b L ((100 : ℚ) * sc) hL]
    exact_mod_cast Iff.rfl

/-- The integerized corruption branch of `assessContentQuality` agrees
with `special_char_ratio > 0.3 or quality_score < 20`. -/
lemma likely_corrupted_iff (content : List Char) :
    (assessContentQuality content).likely_corrupted = true ↔
      ((3 : ℚ) / 10 < codeSpecialRatio content ∨
        (assessContentQuality content).quality_score < 20) := by
  have hL : 0 < max content.length 1 :=
    Nat.lt_of_lt_of_le Nat.zero_lt_one (le_max_right _ _)
  simp only [assessContentQuality]
  rw [codeSpecialRatio]
  exact corrupted_decide_iff _ (specialCount content) (max content.length 1) hL

/-- C8 (counterexample): the claim's character class for
`special_char_ratio` — "characters outside alphanumerics, whitespace
and `.,!?;:-`" — differs from the code's `[^\w\s.,!?;:-]`, because `\w`
also exempts the underscore. On the input of five underscores the code
computes quality score 40 and no corruption flag, while the claim's
formula computes score −60 and flags corruption. -/
theorem quality_special_class_mismatch :
    (assessContentQuality ("_____".toList)).quality_score = 40 ∧
    (assessContentQuality ("_____".toList)).likely_corrupted = false ∧
    claimQualityScore ("_____".toList) = -60 ∧
    ((3 : ℚ) / 10 < claimSpecialRatio ("_____".toList)) := by
  have hws : pySplitWS ("_____".toList) = [("_____".toList)] := by decide
  have hreg : regulatoryCount ("_____".toList) = 0 := by decide
  have hsc : specialCount ("_____".toList) = 0 := by decide
  have hcsc : claimSpecialCount ("_____".toList) = 5 := by decide
  have hsent : (sentSplit ("_____".toList)).countP
      (fun s => 3 < (pySplitWS s).length) = 0 := by decide
  have hlen : ("_____".toList).length = 5 := by decide
  refine ⟨?_, by decide, ?_, ?_⟩
  · rw [quality_score_formula]
    unfold amendedQualityScore specScore codeSpecialRatio avgWordLength
    rw [hreg, hsc, hsent, hws, hlen]
    norm_num
  · unfold claimQualityScore specScore claimSpecialRatio avgWordLength
    rw [hcsc, hsent, hreg, hws, hlen]
    norm_num
  · unfold claimSpecialRatio
    rw [hcsc, hlen]
    norm_num

/-- C8 (amended): `_assess_content_quality` satisfies the claim once the
special-character class is corrected to the code's `[^\w\s.,!?;:-]`
(underscore exempt): the quality score equals the claimed `min(100, ...)`
formula with that ratio, `needs_splitting` holds iff `word_count > 2500`,
and `likely_corrupted` holds iff the ratio exceeds `0.3` or the score is
below `20`. -/
theorem assess_matches_amended_formula (content : List Char) :
    (assessContentQuality content).quality_score = amendedQualityScore content ∧
    ((assessContentQuality content).needs_splitting = true ↔
      2500 < (assessContentQuality content).word_count) ∧
    ((assessContentQuality content).likely_corrupted = true ↔
      ((3 : ℚ) / 10 < codeSpecialRatio content ∨
        (assessContentQuality content).quality_score < 20)) := by
  refine ⟨quality_score_formula content, ?_, likely_corrupted_iff content⟩
  simp only [assessContentQuality, decide_eq_true_eq]

/-- C10: `_extract_fallback_requirements` always returns at least one
record; in standard mode with no standard-pattern match it re-runs
itself aggressively; with no match in either mode it returns exactly
the one summary record, whose category is `review_required`, whose
extraction method is `summary_fallback`, and whose text embeds the
content preview truncated to 300 characters. -/
theorem fallback_every_text_yields_a_record (md5 : List Char → List Char)
    (text cid : List Char) (aggressive : Bool) :
    extractFallbackRequirements md5 text cid aggressive ≠ [] ∧
    (fbRecordsOnce md5 text cid false = [] →
      extractFallbackRequirements md5 text cid false =
        extractFallbackRequirements md5 text cid true) ∧
    (fbRecordsOnce md5 text cid false = [] →
      fbRecordsOnce md5 text cid true = [] →
      extractFallbackRequirements md5 text cid aggressive =
        [summaryReq text cid] ∧
      (summaryReq text cid).category = "review_required".toList ∧
      (summaryReq text cid).extraction_method = "summary_fallback".toList ∧
      (summaryReq text cid).requirement =
        "Manual review required - potential regulatory content: ".toList ++
          (if 300 < text.length then text.take 300 ++ "...".toList
            else text)) := by
  refine ⟨extractFallbackRequirements_ne_nil md5 text cid aggressive, ?_, ?_⟩
  · intro h
    conv_lhs => unfold extractFallbackRequirements
    simp [h]
  · intro h0 h1
    have hT : extractFallbackRequirements md5 text cid true =
        [summaryReq text cid] := by
      conv_lhs => unfold extractFallbackRequirements
      simp [h1]
    refine ⟨?_, rfl, rfl, rfl⟩
    cases aggressive
    · conv_lhs => unfold extractFallbackRequirements
      simp [h0, hT]
    · exact hT

/-- C10 witness: on the three-character text "xyz" no pattern matches in
either mode, and the fallback returns exactly the summary record. -/
theorem fallback_every_text_yields_a_record_witness :
    extractFallbackRequirements (fun _ => []) ("xyz".toList) ("w".toList)
      false = [summaryReq ("xyz".toList) ("w".toList)] :=
  ((fallback_every_text_yields_a_record (fun _ => []) ("xyz".toList)
    ("w".toList) false).2.2 (by decide) (by decide)).1

/-! ## C9: the recursion through oversized chunks has no depth cap

`_process_large_chunk` re-enters `extract_requirements` on each
sub-chunk with no depth counter; whether the recursion shrinks depends
entirely on the external `RecursiveCharacterTextSplitter`. The word
sequence `a a ... a` with 2501 words is a fixed point of
`_preprocess_content` with `needs_splitting` set, so under a splitter
that returns its input unchanged the recursion never bottoms out: the
embedding returns `none` at every fuel. -/

/-- The text `a a ... a` with `n + 1` single-letter words. -/
def Wn : Nat → List Char
  | 0 => ['a']
  | n + 1 => 'a' :: ' ' :: Wn n

lemma Wn_ne_nil (n : Nat) : Wn n ≠ [] := by
  cases n <;> simp [Wn]

lemma Wn_cons : ∀ n : Nat, ∃ t, Wn n = 'a' :: t
  | 0 => ⟨[], rfl⟩
  | n + 1 => ⟨' ' :: Wn n, rfl⟩

/-- The three shapes of a suffix of some `Wn n`. -/
def WSuf (xs : List Char) : Prop :=
  xs = [] ∨ (∃ k, xs = Wn k) ∨ (∃ k, xs = ' ' :: Wn k)

lemma WSuf_Wn (n : Nat) : WSuf (Wn n) := Or.inr (Or.inl ⟨n, rfl⟩)

lemma WSuf_tail {c : Char} {rest : List Char} (h : WSuf (c :: rest)) :
    WSuf rest := by
  rcases h with h | ⟨k, hk⟩ | ⟨k, hk⟩
  · exact absurd h (List.cons_ne_nil c rest)
  · cases k with
    | zero =>
      rw [show Wn 0 = 'a' :: ([] : List Char) from rfl] at hk
      injection hk with h1 h2
      exact Or.inl h2
    | succ m =>
      rw [show Wn (m + 1) = 'a' :: ' ' :: Wn m from rfl] at hk
      injection hk with h1 h2
      exact Or.inr (Or.inr ⟨m, h2⟩)
  · injection hk with h1 h2
    exact Or.inr (Or.inl ⟨k, h2⟩)

/-- Every character of a `Wn` suffix is `a` or a space. -/
def aaOnly (xs : List Char) : Prop := ∀ c ∈ xs, c = 'a' ∨ c = ' '

lemma aaOnly_Wn (n : Nat) : aaOnly (Wn n) := by
  induction n with
  | zero =>
    intro c hc
    rw [show Wn 0 = ['a'] from rfl] at hc
    simp at hc
    exact Or.inl hc
  | succ k ih =>
    intro c hc
    rw [show Wn (k + 1) = 'a' :: ' ' :: Wn k from rfl] at hc
    simp at hc
    rcases hc with rfl | rfl | hc
    · exact Or.inl rfl
    · exact Or.inr rfl
    · exact ih c hc

lemma aaOnly_tail {c : Char} {rest : List Char} (h : aaOnly (c :: rest)) :
    aaOnly rest := fun d hd => h d (List.mem_cons_of_mem c hd)

lemma Wn_append (n : Nat) : Wn n ++ [' ', 'a'] = Wn (n + 1) := by
  induction n with
  | zero => rfl
  | succ k ih =>
    show 'a' :: ' ' :: (Wn k ++ [' ', 'a']) = 'a' :: ' ' :: Wn (k + 1)
    rw [ih]

lemma Wn_reverse (n : Nat) : (Wn n).reverse = Wn n := by
  induction n with
  | zero => rfl
  | succ k ih =>
    show (('a' : Char) :: ' ' :: Wn k).reverse = Wn (k + 1)
    rw [List.reverse_cons, List.reverse_cons, ih, List.append_assoc]
    exact Wn_append k

lemma pyStrip_Wn (n : Nat) : pyStrip (Wn n) = Wn n := by
  obtain ⟨t, ht⟩ := Wn_cons n
  have hd : (Wn n).dropWhile isPyWS = Wn n := by
    rw [ht, List.dropWhile_cons, if_neg (by decide)]
  rw [pyStrip, hd, Wn_reverse, hd, Wn_reverse]

lemma pySplitWS_Wn (n : Nat) :
    pySplitWS (Wn n) = List.replicate (n + 1) (['a'] : List Char) := by
  induction n with
  | zero => rfl
  | succ k ih =>
    show (['a'] : List Char) :: splitWSAux [] (Wn k) =
      List.replicate (k + 1 + 1) ['a']
    rw [show splitWSAux [] (Wn k) = pySplitWS (Wn k) from rfl, ih]
    exact (List.replicate_succ _ _).symm

lemma specialCount_Wn (n : Nat) : specialCount (Wn n) = 0 := by
  induction n with
  | zero => rfl
  | succ k ih =>
    show specialCount ('a' :: ' ' :: Wn k) = 0
    simp only [specialCount] at ih ⊢
    rw [List.countP_cons, List.countP_cons, ih]
    decide

/-! lcPrefix failure helpers -/

lemma lcPrefix_false_one (p : Char) (ps : List Char) (c : Char) (t : List Char)
    (h : ¬ c.toLower = p) : lcPrefix (p :: ps) (c :: t) = false := by
  rw [lcPrefix]
  refine beq_eq_false_iff_ne.mpr fun he => ?_
  rw [List.length_cons, List.take_succ_cons, List.map_cons] at he
  injection he with h1 h2
  exact h h1

lemma lcPrefix_false_two (p1 p2 : Char) (ps : List Char) (c1 c2 : Char)
    (t : List Char) (h : ¬ c2.toLower = p2) :
    lcPrefix (p1 :: p2 :: ps) (c1 :: c2 :: t) = false := by
  rw [lcPrefix]
  refine beq_eq_false_iff_ne.mpr fun he => ?_
  rw [List.length_cons, List.length_cons, List.take_succ_cons,
    List.take_succ_cons, List.map_cons, List.map_cons] at he
  injection he with h1 h2
  injection h2 with h2 h3
  exact h h2

/-! Each noise matcher returns `none` at every position of `Wn`. -/

lemma matchNoisePage_none (prev : Option Char) (xs : List Char)
    (hx : WSuf xs) : matchNoisePage prev xs = none := by
  have hpage : lcPrefix ['p', 'a', 'g', 'e', ' '] xs = false := by
    rcases hx with rfl | ⟨k, rfl⟩ | ⟨k, rfl⟩
    · decide
    · obtain ⟨t, ht⟩ := Wn_cons k
      rw [ht]
      exact lcPrefix_false_one 'p' ['a', 'g', 'e', ' '] 'a' t (by decide)
    · exact lcPrefix_false_one 'p' ['a', 'g', 'e', ' '] ' ' (Wn k) (by decide)
  have hpg : lcPrefix ['p', 'g', '.', ' '] xs = false := by
    rcases hx with rfl | ⟨k, rfl⟩ | ⟨k, rfl⟩
    · decide
    · obtain ⟨t, ht⟩ := Wn_cons k
      rw [ht]
      exact lcPrefix_false_one 'p' ['g', '.', ' '] 'a' t (by decide)
    · exact lcPrefix_false_one 'p' ['g', '.', ' '] ' ' (Wn k) (by decide)
  simp [matchNoisePage, hpage, hpg]

lemma digitRun_WSuf (xs : List Char) (hx : WSuf xs) : digitRun xs = 0 := by
  rcases hx with rfl | ⟨k, rfl⟩ | ⟨k, rfl⟩
  · rfl
  · obtain ⟨t, ht⟩ := Wn_cons k
    rw [ht, digitRun, List.takeWhile_cons, if_neg (by decide)]
    rfl
  · rw [digitRun, List.takeWhile_cons, if_neg (by decide)]
    rfl

lemma matchNoiseDate_none (prev : Option Char) (xs : List Char)
    (hx : WSuf xs) : matchNoiseDate prev xs = none := by
  have h := digitRun_WSuf xs hx
  simp [matchNoiseDate, h]

lemma matchNoiseFig_none (prev : Option Char) (xs : List Char)
    (hx : WSuf xs) : matchNoiseFig prev xs = none := by
  have hfind : figWords.find? (fun w => lcPrefix w xs) = none := by
    rcases hx with rfl | ⟨k, rfl⟩ | ⟨k, rfl⟩
    · decide
    · cases k with
      | zero => decide
      | succ m =>
        rw [show Wn (m + 1) = 'a' :: ' ' :: Wn m from rfl]
        have h1 : lcPrefix ['f', 'i', 'g', 'u', 'r', 'e']
            ('a' :: ' ' :: Wn m) = false :=
          lcPrefix_false_one 'f' ['i', 'g', 'u', 'r', 'e'] 'a' _ (by decide)
        have h2 : lcPrefix ['t', 'a', 'b', 'l', 'e']
            ('a' :: ' ' :: Wn m) = false :=
          lcPrefix_false_one 't' ['a', 'b', 'l', 'e'] 'a' _ (by decide)
        have h3 : lcPrefix ['c', 'h', 'a', 'r', 't']
            ('a' :: ' ' :: Wn m) = false :=
          lcPrefix_false_one 'c' ['h', 'a', 'r', 't'] 'a' _ (by decide)
        have h4 : lcPrefix ['a', 'p', 'p', 'e', 'n', 'd', 'i', 'x']
            ('a' :: ' ' :: Wn m) = false :=
          lcPrefix_false_two 'a' 'p' ['p', 'e', 'n', 'd', 'i', 'x'] 'a' ' ' _
            (by decide)
        simp [figWords, List.find?, h1, h2, h3, h4]
    · have h1 : lcPrefix ['f', 'i', 'g', 'u', 'r', 'e'] (' ' :: Wn k) = false :=
        lcPrefix_false_one 'f' ['i', 'g', 'u', 'r', 'e'] ' ' _ (by decide)
      have h2 : lcPrefix ['t', 'a', 'b', 'l', 'e'] (' ' :: Wn k) = false :=
        lcPrefix_false_one 't' ['a', 'b', 'l', 'e'] ' ' _ (by decide)
      have h3 : lcPrefix ['c', 'h', 'a', 'r', 't'] (' ' :: Wn k) = false :=
        lcPrefix_false_one 'c' ['h', 'a', 'r', 't'] ' ' _ (by decide)
      have h4 : lcPrefix ['a', 'p', 'p', 'e', 'n', 'd', 'i', 'x']
          (' ' :: Wn k) = false :=
        lcPrefix_false_one 'a' ['p', 'p', 'e', 'n', 'd', 'i', 'x'] ' ' _
          (by decide)
      simp [figWords, List.find?, h1, h2, h3, h4]
  simp [matchNoiseFig, hfind]

lemma wsRun_Wn (k : Nat) : wsRun (Wn k) = 0 := by
  obtain ⟨t, ht⟩ := Wn_cons k
  rw [ht, wsRun, List.takeWhile_cons, if_neg (by decide)]
  rfl

lemma matchNoiseWS_none (prev : Option Char) (xs : List Char)
    (hx : WSuf xs) : matchNoiseWS prev xs = none := by
  have h : wsRun xs ≤ 1 := by
    rcases hx with rfl | ⟨k, rfl⟩ | ⟨k, rfl⟩
    · decide
    · rw [wsRun_Wn]
      omega
    · have h0 := wsRun_Wn k
      rw [wsRun] at h0 ⊢
      rw [List.takeWhile_cons, if_pos (by decide), List.length_cons, h0]
  simp only [matchNoiseWS]
  rw [if_neg (by omega)]

lemma matchNoiseUS_none (prev : Option Char) (xs : List Char)
    (hx : WSuf xs) : matchNoiseUS prev xs = none := by
  have h : (xs.takeWhile (· == '_')).length = 0 := by
    rcases hx with rfl | ⟨k, rfl⟩ | ⟨k, rfl⟩
    · rfl
    · obtain ⟨t, ht⟩ := Wn_cons k
      rw [ht, List.takeWhile_cons, if_neg (by decide)]
      rfl
    · rw [List.takeWhile_cons, if_neg (by decide)]
      rfl
  simp only [matchNoiseUS, h]
  rw [if_neg (by omega)]

/-- A `re.sub` scan whose matcher never fires on `Wn` suffixes is the
identity there. -/
lemma subScanAux_id (m : Option Char → List Char → Option (Nat × List Char))
    (hm : ∀ prev ys, WSuf ys → m prev ys = none) :
    ∀ fuel prev xs, WSuf xs → subScanAux m fuel prev xs = xs := by
  intro fuel
  induction fuel with
  | zero => intro prev xs _; rfl
  | succ f ih =>
    intro prev xs hx
    cases xs with
    | nil => rfl
    | cons c rest =>
      unfold subScanAux
      rw [hm prev (c :: rest) hx]
      show c :: subScanAux m f (some c) rest = c :: rest
      rw [ih (some c) rest (WSuf_tail hx)]

lemma subScan_id (m : Option Char → List Char → Option (Nat × List Char))
    (hm : ∀ prev ys, WSuf ys → m prev ys = none) (xs : List Char)
    (hx : WSuf xs) : subScan m xs = xs :=
  subScanAux_id m hm xs.length none xs hx

lemma subBulletLine_Wn (n : Nat) : subBulletLine (Wn n) = Wn n := by
  obtain ⟨t, ht⟩ := Wn_cons n
  have hb : isBulletLine (Wn n) = false := by
    simp only [isBulletLine]
    rw [ht, List.dropWhile_cons, if_neg (by decide),
      List.takeWhile_cons, if_neg (by decide)]
    simp
  simp [subBulletLine, hb]

lemma wsCollapseAux_id : ∀ fuel xs, WSuf xs → wsCollapseAux fuel xs = xs := by
  intro fuel
  induction fuel with
  | zero => intro xs _; rfl
  | succ f ih =>
    intro xs hx
    rcases hx with rfl | ⟨k, rfl⟩ | ⟨k, rfl⟩
    · rfl
    · obtain ⟨t, ht⟩ := Wn_cons k
      have hsuf : WSuf t := WSuf_tail (ht ▸ WSuf_Wn k)
      rw [ht]
      show 'a' :: wsCollapseAux f t = 'a' :: t
      rw [ih t hsuf]
    · have hd : (Wn k).dropWhile isPyWS = Wn k := by
        obtain ⟨t, ht⟩ := Wn_cons k
        rw [ht, List.dropWhile_cons, if_neg (by decide)]
      show ' ' :: wsCollapseAux f ((Wn k).dropWhile isPyWS) = ' ' :: Wn k
      rw [hd, ih (Wn k) (WSuf_Wn k)]

lemma wsCollapse_Wn (n : Nat) : wsCollapse (Wn n) = Wn n :=
  wsCollapseAux_id _ _ (WSuf_Wn n)

lemma camelSub_id (xs : List Char) (h : aaOnly xs) : camelSub xs = xs := by
  induction xs with
  | nil => rfl
  | cons a t ih =>
    cases t with
    | nil => rfl
    | cons b r =>
      have hg : (a.isLower && b.isUpper) = false := by
        have ha := h a (List.mem_cons_self a _)
        have hb := h b (List.mem_cons_of_mem a (List.mem_cons_self b _))
        rcases ha with rfl | rfl <;> rcases hb with rfl | rfl <;> decide
      show (if a.isLower && b.isUpper then a :: ' ' :: b :: camelSub r
        else a :: camelSub (b :: r)) = a :: b :: r
      rw [hg]
      simp only [Bool.false_eq_true, if_false]
      rw [ih (aaOnly_tail h)]

lemma digitAlphaSub_id (xs : List Char) (h : aaOnly xs) :
    digitAlphaSub xs = xs := by
  induction xs with
  | nil => rfl
  | cons a t ih =>
    cases t with
    | nil => rfl
    | cons b r =>
      have ha : a.isDigit = false := by
        rcases h a (List.mem_cons_self a _) with rfl | rfl <;> decide
      have hg : (a.isDigit && b.isAlpha) = false := by
        rw [ha, Bool.false_and]
      show (if a.isDigit && b.isAlpha then a :: ' ' :: b :: digitAlphaSub r
        else a :: digitAlphaSub (b :: r)) = a :: b :: r
      rw [hg]
      simp only [Bool.false_eq_true, if_false]
      rw [ih (aaOnly_tail h)]

lemma alphaDigitSub_id (xs : List Char) (h : aaOnly xs) :
    alphaDigitSub xs = xs := by
  induction xs with
  | nil => rfl
  | cons a t ih =>
    cases t with
    | nil => rfl
    | cons b r =>
      have hb : b.isDigit = false := by
        rcases h b (List.mem_cons_of_mem a (List.mem_cons_self b _)) with
          rfl | rfl <;> decide
      have hg : (a.isAlpha && b.isDigit) = false := by
        rw [hb, Bool.and_false]
      show (if a.isAlpha && b.isDigit then a :: ' ' :: b :: alphaDigitSub r
        else a :: alphaDigitSub (b :: r)) = a :: b :: r
      rw [hg]
      simp only [Bool.false_eq_true, if_false]
      rw [ih (aaOnly_tail h)]

lemma dotUpperSub_id (xs : List Char) (h : aaOnly xs) :
    dotUpperSub xs = xs := by
  induction xs with
  | nil => rfl
  | cons a t ih =>
    rcases h a (List.mem_cons_self a _) with rfl | rfl
    · show 'a' :: dotUpperSub t = 'a' :: t
      rw [ih (aaOnly_tail h)]
    · show ' ' :: dotUpperSub t = ' ' :: t
      rw [ih (aaOnly_tail h)]

/-- `_preprocess_content` is the identity on the `Wn` texts. -/
lemma preprocess_Wn (n : Nat) : preprocess (Wn n) = Wn n := by
  have hs := pyStrip_Wn n
  have hW := WSuf_Wn n
  have haa := aaOnly_Wn n
  simp only [preprocess]
  rw [if_neg (by rw [hs]; exact Wn_ne_nil n)]
  rw [subScan_id _ matchNoisePage_none _ hW,
    subScan_id _ matchNoiseDate_none _ hW,
    subBulletLine_Wn,
    subScan_id _ matchNoiseFig_none _ hW,
    subScan_id _ matchNoiseWS_none _ hW,
    subScan_id _ matchNoiseUS_none _ hW,
    wsCollapse_Wn,
    camelSub_id _ haa, digitAlphaSub_id _ haa, alphaDigitSub_id _ haa,
    dotUpperSub_id _ haa]
  exact hs

/-- The corruption flag is off whenever the content has no special
characters: the integer score term is at least the word-count bonus,
which is at least 20. -/
lemma corrupted_flag_false (b L : Nat) (hb : 20 ≤ b) :
    (decide (3 * L < 10 * 0) ||
      decide ((b : Int) * L < 20 * L + 100 * ((0 : ℕ) : Int))) = false := by
  rw [Bool.or_eq_false_iff]
  refine ⟨by simp, ?_⟩
  rw [decide_eq_false_iff_not, not_lt]
  have hb2 : (20 : ℤ) ≤ (b : ℤ) := by exact_mod_cast hb
  have hL2 : (0 : ℤ) ≤ (L : ℤ) := Int.natCast_nonneg L
  have := mul_le_mul_of_nonneg_right hb2 hL2
  simp only [Nat.cast_zero, mul_zero, add_zero]
  linarith

lemma likely_corrupted_false_of_specials_zero (content : List Char)
    (h : specialCount content = 0) :
    (assessContentQuality content).likely_corrupted = false := by
  simp only [assessContentQuality, h]
  apply corrupted_flag_false
  have hwb : 20 ≤ (if 50 < (pySplitWS content).length ∧
      (pySplitWS content).length < 1000 then (50 : ℕ) else 20) := by
    split <;> omega
  omega

lemma needs_splitting_Wn2500 :
    (assessContentQuality (Wn 2500)).needs_splitting = true := by
  simp only [assessContentQuality]
  rw [pySplitWS_Wn, List.length_replicate]
  decide

/-- C9 (code bug): `extract_requirements` has no explicit recursion
depth cap. For any content that strips non-empty, is a fixed point of
preprocessing, is not flagged corrupted and trips `needs_splitting`,
and any external splitter that fails to shrink its input
(`split_text(t) = [t]`), the recursion through `_process_large_chunk`
re-enters `extract_requirements` on the identical content forever: the
embedding returns `none` at every fuel. The spec itself (§9) requires
an explicit cap with a pattern-extraction fallback below it; the code
has neither, so termination rests entirely on the external splitter's
behaviour. -/
theorem extract_requirements_no_depth_cap (E : ExtDeps) (content : List Char)
    (hsp : ∀ t, E.splitText t = [t])
    (hne : ¬ pyStrip content = [])
    (hfix : preprocess content = content)
    (hcor : (assessContentQuality content).likely_corrupted = false)
    (hns : (assessContentQuality content).needs_splitting = true) :
    ∀ fuel cid,
      extract_requirements E fuel { content := content, chunk_id := cid } =
        none := by
  intro fuel
  simp only [extract_requirements]
  induction fuel with
  | zero => intro _; rfl
  | succ f ih =>
    intro cid
    simp only [extractAux]
    rw [if_neg hne, hfix, hcor, hns]
    simp only [Bool.false_eq_true, if_false, if_true, hsp]
    show (do
      let rs ← extractAux E f
        { content := content,
          chunk_id := cid ++ "_SUB".toList ++ (toString (0 + 1)).toList }
      let tail ← subChunksLoop (extractAux E f) cid (0 + 1) []
      pure (tagSub cid 0 rs ++ tail)) = none
    rw [ih (cid ++ "_SUB".toList ++ (toString (0 + 1)).toList)]
    rfl

/-- C9 witness: under the identity splitter, extraction of the
2501-word text diverges (here at fuel 5). -/
theorem extract_requirements_no_depth_cap_witness :
    extract_requirements depsAlwaysFail 5
      { content := Wn 2500, chunk_id := "1".toList } = none :=
  extract_requirements_no_depth_cap depsAlwaysFail (Wn 2500)
    (fun _ => rfl)
    (by rw [pyStrip_Wn]; exact Wn_ne_nil 2500)
    (preprocess_Wn 2500)
    (likely_corrupted_false_of_specials_zero _ (specialCount_Wn 2500))
    needs_splitting_Wn2500 5 ("1".toList)

end PolicyChecker
